import Mathlib

/-!
# Particle filter (`src/particle_filter.cpp`): embedding and verified properties

The C++ `double` is embedded as an arbitrary linearly ordered field `α`
(instantiated with `ℚ` for evaluation and with `ℝ` when the transcendental
functions matter).  The functions of `<math.h>` are passed in as a record
`Libm α`; the pseudo-random generator `gen` is replaced by the explicit
sequence of values it hands out.  A read outside a vector, and a loop that
has used up its fuel, make an operation return `none`.
-/

set_option linter.unusedSectionVars false

namespace KidnappedVehicle

/-! ## Data model -/

/-- The functions and the constant of `<math.h>` that the source calls:
`sqrt`, `sin`, `cos`, `exp` and `M_PI`. -/
structure Libm (α : Type) where
  sqrt : α → α
  sin : α → α
  cos : α → α
  exp : α → α
  pi : α

/-- Modelled from the spec: `struct Particle` of `particle_filter.h`, which is
not part of the sources; the fields are those of the data model (section 3)
and those the source assigns. -/
structure Particle (α : Type) where
  id : Int
  x : α
  y : α
  theta : α
  weight : α
  associations : List Int
  sense_x : List α
  sense_y : List α
deriving DecidableEq

/-- Modelled from the spec: `struct LandmarkObs` of `helper_functions.h`, which
is not part of the sources (section 3: id, x, y). -/
structure LandmarkObs (α : Type) where
  id : Int
  x : α
  y : α
deriving DecidableEq

/-- Modelled from the spec: `Map::single_landmark_s` of `map.h`, which is not
part of the sources; the field names are the ones `updateWeights` reads. -/
structure single_landmark_s (α : Type) where
  id_i : Int
  x_f : α
  y_f : α
deriving DecidableEq

/-- Modelled from the spec: `class Map` of `map.h`, which is not part of the
sources: an ordered collection of landmark records. -/
structure Map (α : Type) where
  landmark_list : List (single_landmark_s α)
deriving DecidableEq

/-- Modelled from the spec: the data members of `class ParticleFilter`
(`particle_filter.h` is not part of the sources): `num_particles`,
`is_initialized`, the member `weights` that `init` assigns, and `particles`. -/
structure ParticleFilter (α : Type) where
  num_particles : Nat
  is_initialized : Bool
  weights : List α
  particles : List (Particle α)
deriving DecidableEq

variable {α : Type} [LinearOrderedField α]

/-- The value of `std::numeric_limits<double>::max()`, which is
`(2 - 2^(-52)) * 2^1023 = 2^1024 - 2^971`. -/
def DBL_MAX : α := 2 ^ 1024 - 2 ^ 971

/-- Modelled from the spec: `dist` of `helper_functions.h`, which is not part
of the sources: the Euclidean distance between `(x1, y1)` and `(x2, y2)`.  It
is evaluated exactly here; the value the helper returns in `double` is rounded
and is `+infinity` once a squared difference leaves the range, which is why
the claim on the nearest neighbour is stated for `dataAssociationBy`. -/
def dist (m : Libm α) (x1 y1 x2 y2 : α) : α :=
  m.sqrt ((x2 - x1) * (x2 - x1) + (y2 - y1) * (y2 - y1))

/-! ## `dataAssociation` (lines 92-129) -/

/-- The inner loop `for (j = 0; j < predicted.size(); j++)` of
`dataAssociation`, run on the part of `predicted` not yet visited, with the
current values of the locals `min_dist` and `map_id`; it returns the final
`map_id`. -/
def nearestLoop (m : Libm α) (obs : LandmarkObs α) :
    List (LandmarkObs α) → α → Int → Int
  | [], _, map_id => map_id
  | pred :: rest, min_dist, map_id =>
    let currDist := dist m obs.x obs.y pred.x pred.y
    if currDist < min_dist then nearestLoop m obs rest currDist pred.id
    else nearestLoop m obs rest min_dist map_id

/-- The function `ParticleFilter::dataAssociation`: the value of `observations`
after the call.  Each observation gets the `map_id` found by the inner loop
started with `min_dist = DBL_MAX` and `map_id = -1`. -/
def dataAssociation (m : Libm α) (predicted : List (LandmarkObs α))
    (observations : List (LandmarkObs α)) : List (LandmarkObs α) :=
  observations.map fun obs =>
    { obs with id := nearestLoop m obs predicted DBL_MAX (-1) }

/-- The inner loop of `dataAssociation` with the helper `dist` of
`helper_functions.h` (not part of the sources) taken as a parameter: `d` gives
the value `dist(obs.x, obs.y, pred.x, pred.y)` returns, a `double` with its
rounding and with `+infinity` on overflow, read as a value above `DBL_MAX`.
Everything else is the loop of lines 113-125. -/
def nearestLoopBy (d : α → α → α → α → α) (obs : LandmarkObs α) :
    List (LandmarkObs α) → α → Int → Int
  | [], _, map_id => map_id
  | pred :: rest, min_dist, map_id =>
    let currDist := d obs.x obs.y pred.x pred.y
    if currDist < min_dist then nearestLoopBy d obs rest currDist pred.id
    else nearestLoopBy d obs rest min_dist map_id

/-- The function `ParticleFilter::dataAssociation` with the helper `dist`
taken as the parameter `d`. -/
def dataAssociationBy (d : α → α → α → α → α) (predicted : List (LandmarkObs α))
    (observations : List (LandmarkObs α)) : List (LandmarkObs α) :=
  observations.map fun obs =>
    { obs with id := nearestLoopBy d obs predicted DBL_MAX (-1) }

/-! ## Loops over the particle vector -/

/-- The loop `for (int i = ...; i < num_particles; i++)` whose body rewrites
`particles[i]`: the first number is the current `i`, the second the number of
iterations left.  Reading `particles[i]` beyond the end of the vector gives
`none`, and so does a body that fails. -/
def forParticles (body : Nat → Particle α → Option (Particle α)) :
    Nat → Nat → List (Particle α) → Option (List (Particle α))
  | _, 0, ps => some ps
  | i, k + 1, ps =>
    match ps[i]? with
    | none => none
    | some p =>
      match body i p with
      | none => none
      | some q => forParticles body (i + 1) k (ps.set i q)

/-! ## `init` (lines 21-55) -/

/-- The loop `for (int i = 0; i < num_particles; i++)` of `init`, which appends
one particle per iteration; `draws i` holds the three values that
`dist_x(gen)`, `dist_y(gen)` and `dist_theta(gen)` return in iteration `i`. -/
def initLoop (draws : Nat → α × α × α) (weights : List α) :
    Nat → Nat → List (Particle α) → Option (List (Particle α))
  | _, 0, ps => some ps
  | i, k + 1, ps =>
    match weights[i]? with
    | none => none
    | some w =>
      initLoop draws weights (i + 1) k
        (ps ++ [⟨(i : Int), (draws i).1, (draws i).2.1, (draws i).2.2, w, [], [], []⟩])

/-- The function `ParticleFilter::init`.  The estimate `(x, y, theta)` and the
deviations `std` only parameterise the three normal distributions, whose
samples are the input `draws`. -/
def init (_x _y _theta : α) (_std : α × α × α) (draws : Nat → α × α × α)
    (pf : ParticleFilter α) : Option (ParticleFilter α) :=
  let num_particles := 100
  let weights := List.replicate num_particles (1 : α)
  match initLoop draws weights 0 num_particles pf.particles with
  | none => none
  | some ps => some ⟨num_particles, true, weights, ps⟩

/-! ## `prediction` (lines 57-90) -/

/-- The body of the loop of `prediction` for one particle; `noise` holds the
three values that `dist_x(gen)`, `dist_y(gen)` and `dist_theta(gen)` return
for it. -/
def predictParticle (m : Libm α) (delta_t velocity yaw_rate : α)
    (noise : α × α × α) (p : Particle α) : Particle α :=
  let p1 : Particle α :=
    if |yaw_rate| < 0.00001 then
      { p with
        x := p.x + velocity * delta_t * m.cos p.theta
        y := p.y + velocity * delta_t * m.sin p.theta }
    else
      { p with
        x := p.x + velocity / yaw_rate *
          (m.sin (p.theta + yaw_rate * delta_t) - m.sin p.theta)
        y := p.y + velocity / yaw_rate *
          (m.cos p.theta - m.cos (p.theta + yaw_rate * delta_t))
        theta := p.theta + yaw_rate * delta_t }
  { p1 with
    x := p1.x + noise.1
    y := p1.y + noise.2.1
    theta := p1.theta + noise.2.2 }

/-- The function `ParticleFilter::prediction`.  The deviations `std_pos` only
parameterise the three zero-mean normal distributions, whose samples are the
input `noise` (one triple per particle index). -/
def prediction (m : Libm α) (delta_t : α) (_std_pos : α × α × α)
    (velocity yaw_rate : α) (noise : Nat → α × α × α)
    (pf : ParticleFilter α) : Option (ParticleFilter α) :=
  match forParticles
      (fun i p => some (predictParticle m delta_t velocity yaw_rate (noise i) p))
      0 pf.num_particles pf.particles with
  | none => none
  | some ps => some { pf with particles := ps }

/-! ## `updateWeights` (lines 131-229) -/

/-- The local `predictions` of `updateWeights` (lines 154-169): the landmarks
of the map that pass the range test, for a particle at `(p_x, p_y)`. -/
def predictions (sensor_range p_x p_y : α) :
    List (single_landmark_s α) → List (LandmarkObs α)
  | [] => []
  | lm :: rest =>
    if |p_x - lm.x_f| ≤ sensor_range ∧ |p_y - lm.y_f| ≤ sensor_range then
      ⟨lm.id_i, lm.x_f, lm.y_f⟩ :: predictions sensor_range p_x p_y rest
    else predictions sensor_range p_x p_y rest

/-- The local `map_observations` of `updateWeights` as it is built in lines
171-182, before `dataAssociation` is called on it. -/
def map_observations (m : Libm α) (p_x p_y p_theta : α)
    (observations : List (LandmarkObs α)) : List (LandmarkObs α) :=
  observations.map fun o =>
    ⟨o.id,
     p_x + (m.cos p_theta * o.x) - (m.sin p_theta * o.y),
     p_y + (m.sin p_theta * o.x) + (m.cos p_theta * o.y)⟩

/-- The body of the loop of line 200 once its condition holds: `k` runs
upwards from the head of the list until an id matches.  Running off the end
reads `predictions[k]` outside the vector: `none`. -/
def scanPredictions (prediction_id : Int) :
    List (LandmarkObs α) → Option (α × α)
  | [] => none
  | pred :: rest =>
    if pred.id = prediction_id then some (pred.x, pred.y)
    else scanPredictions prediction_id rest

/-- The loop `for (int k = 0; i < predictions.size(); k++)` of lines 200-209,
for particle index `i`: the values of `pred_x` and `pred_y` after it.  Its
condition compares the particle index `i`, not `k`, with the size; when it is
false the body never runs and the two locals, declared without an initial
value in line 192, keep whatever they hold, which is the input `unset`.  The
input ranges over numbers: a read that yields a NaN is outside the
embedding. -/
def lookupPrediction (i : Nat) (preds : List (LandmarkObs α))
    (prediction_id : Int) (unset : α × α) : Option (α × α) :=
  if i < preds.length then scanPredictions prediction_id preds
  else some unset

/-- The density of lines 211-223 for one observation at `(obs_x, obs_y)` and
the landmark position `(pred_x, pred_y)`. -/
def density (m : Libm α) (std_landmark : α × α) (obs_x obs_y pred_x pred_y : α) : α :=
  let sig_x := std_landmark.1
  let sig_y := std_landmark.2
  let gauss_norm := 1 / (2 * m.pi * sig_x * sig_y)
  let exponent := ((pred_x - obs_x) ^ 2 / (2 * sig_x ^ 2)) +
    ((pred_y - obs_y) ^ 2 / (2 * sig_y ^ 2))
  gauss_norm * m.exp (-exponent)

/-- The loop `for (j = 0; j < map_observations.size(); j++)` of lines 190-227
for particle index `i`: the first number is the current `j`, the list is the
part of `map_observations` not yet visited, the last argument the current
`particles[i].weight`.  `unset j` is what the uninitialised locals `pred_x`,
`pred_y` hold in iteration `j`. -/
def weightLoop (m : Libm α) (std_landmark : α × α) (i : Nat)
    (preds : List (LandmarkObs α)) (unset : Nat → α × α) :
    Nat → List (LandmarkObs α) → α → Option α
  | _, [], w => some w
  | j, o :: rest, w =>
    match lookupPrediction i preds o.id (unset j) with
    | none => none
    | some pred =>
      weightLoop m std_landmark i preds unset (j + 1) rest
        (w * density m std_landmark o.x o.y pred.1 pred.2)

/-- The body of the outer loop of `updateWeights` for the particle `p` at
index `i`: the weight it ends with. -/
def particleWeight (m : Libm α) (sensor_range : α) (std_landmark : α × α)
    (observations : List (LandmarkObs α)) (map_landmarks : Map α)
    (unset : Nat → Nat → α × α) (i : Nat) (p : Particle α) : Option α :=
  let preds := predictions sensor_range p.x p.y map_landmarks.landmark_list
  let mobs := dataAssociation m preds (map_observations m p.x p.y p.theta observations)
  weightLoop m std_landmark i preds (unset i) 0 mobs 1

/-- The function `ParticleFilter::updateWeights`.  `unset i j` is what the
uninitialised locals `pred_x`, `pred_y` hold for particle `i` in iteration `j`
of the scoring loop. -/
def updateWeights (m : Libm α) (sensor_range : α) (std_landmark : α × α)
    (observations : List (LandmarkObs α)) (map_landmarks : Map α)
    (unset : Nat → Nat → α × α) (pf : ParticleFilter α) :
    Option (ParticleFilter α) :=
  match forParticles
      (fun i p =>
        match particleWeight m sensor_range std_landmark observations
            map_landmarks unset i p with
        | none => none
        | some w => some { p with weight := w })
      0 pf.num_particles pf.particles with
  | none => none
  | some ps => some { pf with particles := ps }

/-! ## `resample` (lines 231-274) -/

/-- The loop of lines 244-246, which copies `particles[i].weight` for
`i < num_particles` into the local vector `weights`. -/
def weightsLoop (particles : List (Particle α)) :
    Nat → Nat → List α → Option (List α)
  | _, 0, acc => some acc
  | i, k + 1, acc =>
    match particles[i]? with
    | none => none
    | some p => weightsLoop particles (i + 1) k (acc ++ [p.weight])

/-- The value `*std::max_element(weights.begin(), weights.end())`; on an empty
vector the iterator returned is `end()` and must not be dereferenced. -/
def max_element : List α → Option α
  | [] => none
  | w :: ws => some (ws.foldl max w)

/-- The loop `while (beta > weights[index])` of lines 264-267, with at most
`fuel` evaluations of its condition: the values of `beta` and `index` when the
condition fails. -/
def wheel (weights : List α) (num_particles : Nat) :
    Nat → α → Nat → Option (α × Nat)
  | 0, _, _ => none
  | fuel + 1, beta, index =>
    match weights[index]? with
    | none => none
    | some w =>
      if beta > w then
        wheel weights num_particles fuel (beta - w) ((index + 1) % num_particles)
      else some (beta, index)

/-- The loop `for (int i = 0; i < num_particles; i++)` of lines 260-270;
`draws i` is the value `unirealdist(gen)` returns in iteration `i`, the last
argument the vector `resampled_particles` built so far. -/
def resampleLoop (fuel : Nat) (particles : List (Particle α)) (weights : List α)
    (num_particles : Nat) (draws : Nat → α) :
    Nat → Nat → α → Nat → List (Particle α) → Option (List (Particle α))
  | _, 0, _, _, acc => some acc
  | i, k + 1, beta, index, acc =>
    match wheel weights num_particles fuel (beta + draws i * 2) index with
    | none => none
    | some (beta1, index1) =>
      match particles[index1]? with
      | none => none
      | some p =>
        resampleLoop fuel particles weights num_particles draws (i + 1) k
          beta1 index1 (acc ++ [p])

/-- The function `ParticleFilter::resample`.  `start` is the value that
`uniintdist(gen)` returns, `draws` the values of `unirealdist(gen)`; every
`while` loop may evaluate its condition `fuel` times. -/
def resample (fuel : Nat) (start : Nat) (draws : Nat → α)
    (pf : ParticleFilter α) : Option (ParticleFilter α) :=
  match weightsLoop pf.particles 0 pf.num_particles [] with
  | none => none
  | some weights =>
    match max_element weights with
    | none => none
    | some _max_weight =>
      match resampleLoop fuel pf.particles weights pf.num_particles draws
          0 pf.num_particles 0 start [] with
      | none => none
      | some resampled_particles =>
        some { pf with particles := resampled_particles }

/-! ## Instrumented `resample`: the states its loops go through -/

/-- The successive values of `(beta, index)` at the evaluations of the
condition of `while (beta > weights[index])`, first to last, for the walk that
`wheel` runs with the same arguments. -/
def wheelTrace (weights : List α) (num_particles : Nat) :
    Nat → α → Nat → List (α × Nat)
  | 0, _, _ => []
  | fuel + 1, beta, index =>
    (beta, index) ::
      match weights[index]? with
      | none => []
      | some w =>
        if beta > w then
          wheelTrace weights num_particles fuel (beta - w) ((index + 1) % num_particles)
        else []

/-- The walks of the iterations of the main loop of `resample`, one list of
states per iteration, for the run that `resampleLoop` makes with the same
arguments. -/
def resampleTrace (fuel : Nat) (particles : List (Particle α)) (weights : List α)
    (num_particles : Nat) (draws : Nat → α) :
    Nat → Nat → α → Nat → List (List (α × Nat))
  | _, 0, _, _ => []
  | i, k + 1, beta, index =>
    wheelTrace weights num_particles fuel (beta + draws i * 2) index ::
      match wheel weights num_particles fuel (beta + draws i * 2) index with
      | none => []
      | some (beta1, index1) =>
        match particles[index1]? with
        | none => []
        | some _ =>
          resampleTrace fuel particles weights num_particles draws (i + 1) k
            beta1 index1

/-- The walks of a call of `resample`, one per iteration of its main loop. -/
def resampleWalks (fuel : Nat) (start : Nat) (draws : Nat → α)
    (pf : ParticleFilter α) : List (List (α × Nat)) :=
  match weightsLoop pf.particles 0 pf.num_particles [] with
  | none => []
  | some weights =>
    match max_element weights with
    | none => []
    | some _max_weight =>
      resampleTrace fuel pf.particles weights pf.num_particles draws
        0 pf.num_particles 0 start

/-! ## Diagnostics accessors (lines 276-313) -/

/-- The function `ParticleFilter::SetAssociations`: the value of `particle`
after the call. -/
def SetAssociations (particle : Particle α) (associations : List Int)
    (sense_x sense_y : List α) : Particle α :=
  { particle with
    associations := associations
    sense_x := sense_x
    sense_y := sense_y }

/-- The characters that `operator<<` of a stream writes for an `int` in the
default format: the decimal digits, after a minus sign when it is negative. -/
def ostreamInt : Int → List Char
  | Int.ofNat n => Nat.toDigits 10 n
  | Int.negSucc n => '-' :: Nat.toDigits 10 (n + 1)

/-- The content of the stream `ss` after
`copy(v.begin(), v.end(), std::ostream_iterator<T>(ss, " "))`: every element
as `fmt` renders it, each followed by the delimiter `" "`. -/
def copyToStream {β : Type} (fmt : β → List Char) : List β → List Char
  | [] => []
  | a :: rest => fmt a ++ ' ' :: copyToStream fmt rest

/-- The value of `s.length() - 1` in the unsigned 64-bit type `size_t`. -/
def lengthMinusOne (s : List Char) : Nat :=
  (s.length + (2 ^ 64 - 1)) % 2 ^ 64

/-- The call `s.substr(pos, count)` of `std::string`: it throws
`std::out_of_range` (here `none`) when `pos > s.size()`, and otherwise returns
the characters from `pos` on, `min(count, s.size() - pos)` of them. -/
def substr (s : List Char) (pos count : Nat) : Option (List Char) :=
  if pos > s.length then none
  else some ((s.drop pos).take (min count (s.length - pos)))

/-- The function `ParticleFilter::getAssociations`; a `std::string` is the
list of its characters. -/
def getAssociations (best : Particle α) : Option (List Char) :=
  let v := best.associations
  let s := copyToStream ostreamInt v
  substr s 0 (lengthMinusOne s)

/-- The function `ParticleFilter::getSenseCoord`.  `fmtFloat` is the text that
`operator<<` writes for a value converted to `float`. -/
def getSenseCoord (fmtFloat : α → List Char) (best : Particle α)
    (coord : List Char) : Option (List Char) :=
  let v := if coord = ['X'] then best.sense_x else best.sense_y
  let s := copyToStream fmtFloat v
  substr s 0 (lengthMinusOne s)

/-- Reading a decimal numeral: the number that a list of digits denotes. -/
def parseNat (cs : List Char) : Nat :=
  cs.foldl (fun acc c => acc * 10 + (c.toNat - 48)) 0

/-- Reading a token as an integer: an optional minus sign, then digits. -/
def parseInt : List Char → Int
  | '-' :: cs => -(parseNat cs : Int)
  | cs => (parseNat cs : Int)

/-! ## Sequences of public operations -/

/-- One call of a public operation of the filter together with its arguments
and with the values the random generator hands out during the call. -/
inductive Op (α : Type) where
  | init (x y theta : α) (std : α × α × α) (draws : Nat → α × α × α)
  | prediction (delta_t : α) (std_pos : α × α × α) (velocity yaw_rate : α)
      (noise : Nat → α × α × α)
  | updateWeights (sensor_range : α) (std_landmark : α × α)
      (observations : List (LandmarkObs α)) (map_landmarks : Map α)
      (unset : Nat → Nat → α × α)
  | resample (fuel start : Nat) (draws : Nat → α)

/-- Whether the call is a call of `init`. -/
def Op.isInit : Op α → Bool
  | Op.init _ _ _ _ _ => true
  | _ => false

/-- The effect of one call on the filter state. -/
def step (m : Libm α) : Op α → ParticleFilter α → Option (ParticleFilter α)
  | Op.init x y theta std draws, pf => init x y theta std draws pf
  | Op.prediction delta_t std_pos velocity yaw_rate noise, pf =>
    prediction m delta_t std_pos velocity yaw_rate noise pf
  | Op.updateWeights sensor_range std_landmark observations map_landmarks unset, pf =>
    updateWeights m sensor_range std_landmark observations map_landmarks unset pf
  | Op.resample fuel start draws, pf => resample fuel start draws pf

/-- The effect of a sequence of calls, made in list order. -/
def run (m : Libm α) : List (Op α) → ParticleFilter α → Option (ParticleFilter α)
  | [], pf => some pf
  | op :: ops, pf =>
    match step m op pf with
    | none => none
    | some pf1 => run m ops pf1

/-! ## Example data -/

/-- The example of the specification for `resample`: three particles with the
weights `[0, 0, 1]`. -/
def threeParticles : ParticleFilter ℚ :=
  ⟨3, true, [],
    [⟨0, 10, 20, 0, 0, [], [], []⟩, ⟨1, 11, 21, 0, 0, [], [], []⟩,
     ⟨2, 12, 22, 0, 1, [], [], []⟩]⟩

/-! # Lemmas -/

/-! ## Lemmas on `dataAssociation` -/

/-- When no element of the list is strictly closer than `min_dist`, the inner
loop leaves `map_id` as it was. -/
theorem nearestLoop_none (m : Libm α) (obs : LandmarkObs α) :
    ∀ (l : List (LandmarkObs α)) (min_dist : α) (map_id : Int),
      (∀ q ∈ l, ¬ dist m obs.x obs.y q.x q.y < min_dist) →
      nearestLoop m obs l min_dist map_id = map_id := by
  intro l
  induction l with
  | nil => intro min_dist map_id _; rfl
  | cons pred rest ih =>
    intro min_dist map_id h
    have h0 : ¬ dist m obs.x obs.y pred.x pred.y < min_dist :=
      h pred (List.mem_cons_self _ _)
    simp only [nearestLoop, if_neg h0]
    exact ih min_dist map_id fun q hq => h q (List.mem_cons_of_mem _ hq)

/-- When some element of the list is strictly closer than `min_dist`, the inner
loop returns the id of the first element at minimal distance. -/
theorem nearestLoop_some (m : Libm α) (obs : LandmarkObs α) :
    ∀ (l : List (LandmarkObs α)) (min_dist : α) (map_id : Int),
      (∃ q ∈ l, dist m obs.x obs.y q.x q.y < min_dist) →
      ∃ (k : Nat) (p : LandmarkObs α), l[k]? = some p ∧
        nearestLoop m obs l min_dist map_id = p.id ∧
        dist m obs.x obs.y p.x p.y < min_dist ∧
        (∀ q ∈ l, dist m obs.x obs.y p.x p.y ≤ dist m obs.x obs.y q.x q.y) ∧
        (∀ (j : Nat) (q : LandmarkObs α), j < k → l[j]? = some q →
          dist m obs.x obs.y p.x p.y < dist m obs.x obs.y q.x q.y) := by
  intro l
  induction l with
  | nil => intro min_dist map_id h; obtain ⟨q, hq, _⟩ := h; cases hq
  | cons pred rest ih =>
    intro min_dist map_id h
    by_cases h0 : dist m obs.x obs.y pred.x pred.y < min_dist
    · simp only [nearestLoop, if_pos h0]
      by_cases hr : ∃ q ∈ rest,
          dist m obs.x obs.y q.x q.y < dist m obs.x obs.y pred.x pred.y
      · obtain ⟨k, p, hk, hres, hlt, hmin, hfirst⟩ := ih _ pred.id hr
        refine ⟨k + 1, p, by simpa using hk, hres, lt_trans hlt h0, ?_, ?_⟩
        · intro q hq
          rcases List.mem_cons.1 hq with rfl | hq
          · exact le_of_lt hlt
          · exact hmin q hq
        · intro j q hj hjq
          cases j with
          | zero =>
            simp only [List.getElem?_cons_zero, Option.some.injEq] at hjq
            subst hjq
            exact hlt
          | succ j =>
            exact hfirst j q (by omega) (by simpa using hjq)
      · have hr2 : ∀ q ∈ rest,
            ¬ dist m obs.x obs.y q.x q.y < dist m obs.x obs.y pred.x pred.y :=
          fun q hq hlt => hr ⟨q, hq, hlt⟩
        refine ⟨0, pred, by simp, nearestLoop_none m obs rest _ _ hr2, h0, ?_, ?_⟩
        · intro q hq
          rcases List.mem_cons.1 hq with rfl | hq
          · exact le_refl _
          · exact not_lt.1 (hr2 q hq)
        · intro j q hj _
          omega
    · simp only [nearestLoop, if_neg h0]
      have hr : ∃ q ∈ rest, dist m obs.x obs.y q.x q.y < min_dist := by
        obtain ⟨q, hq, hlt⟩ := h
        rcases List.mem_cons.1 hq with rfl | hq
        · exact absurd hlt h0
        · exact ⟨q, hq, hlt⟩
      obtain ⟨k, p, hk, hres, hlt, hmin, hfirst⟩ := ih min_dist map_id hr
      refine ⟨k + 1, p, by simpa using hk, hres, hlt, ?_, ?_⟩
      · intro q hq
        rcases List.mem_cons.1 hq with rfl | hq
        · exact le_of_lt (lt_of_lt_of_le hlt (not_lt.1 h0))
        · exact hmin q hq
      · intro j q hj hjq
        cases j with
        | zero =>
          simp only [List.getElem?_cons_zero, Option.some.injEq] at hjq
          subst hjq
          exact lt_of_lt_of_le hlt (not_lt.1 h0)
        | succ j =>
          exact hfirst j q (by omega) (by simpa using hjq)

/-- With `dist` as a parameter: when no element of the list is strictly closer
than `min_dist`, the inner loop leaves `map_id` as it was. -/
theorem nearestLoopBy_none (d : α → α → α → α → α) (obs : LandmarkObs α) :
    ∀ (l : List (LandmarkObs α)) (min_dist : α) (map_id : Int),
      (∀ q ∈ l, ¬ d obs.x obs.y q.x q.y < min_dist) →
      nearestLoopBy d obs l min_dist map_id = map_id := by
  intro l
  induction l with
  | nil => intro min_dist map_id _; rfl
  | cons pred rest ih =>
    intro min_dist map_id h
    have h0 : ¬ d obs.x obs.y pred.x pred.y < min_dist :=
      h pred (List.mem_cons_self _ _)
    simp only [nearestLoopBy, if_neg h0]
    exact ih min_dist map_id fun q hq => h q (List.mem_cons_of_mem _ hq)

/-- With `dist` as a parameter: when some element of the list is strictly
closer than `min_dist`, the inner loop returns the id of the first element at
minimal distance. -/
theorem nearestLoopBy_some (d : α → α → α → α → α) (obs : LandmarkObs α) :
    ∀ (l : List (LandmarkObs α)) (min_dist : α) (map_id : Int),
      (∃ q ∈ l, d obs.x obs.y q.x q.y < min_dist) →
      ∃ (k : Nat) (p : LandmarkObs α), l[k]? = some p ∧
        nearestLoopBy d obs l min_dist map_id = p.id ∧
        d obs.x obs.y p.x p.y < min_dist ∧
        (∀ q ∈ l, d obs.x obs.y p.x p.y ≤ d obs.x obs.y q.x q.y) ∧
        (∀ (j : Nat) (q : LandmarkObs α), j < k → l[j]? = some q →
          d obs.x obs.y p.x p.y < d obs.x obs.y q.x q.y) := by
  intro l
  induction l with
  | nil => intro min_dist map_id h; obtain ⟨q, hq, _⟩ := h; cases hq
  | cons pred rest ih =>
    intro min_dist map_id h
    by_cases h0 : d obs.x obs.y pred.x pred.y < min_dist
    · simp only [nearestLoopBy, if_pos h0]
      by_cases hr : ∃ q ∈ rest,
          d obs.x obs.y q.x q.y < d obs.x obs.y pred.x pred.y
      · obtain ⟨k, p, hk, hres, hlt, hmin, hfirst⟩ := ih _ pred.id hr
        refine ⟨k + 1, p, by simpa using hk, hres, lt_trans hlt h0, ?_, ?_⟩
        · intro q hq
          rcases List.mem_cons.1 hq with rfl | hq
          · exact le_of_lt hlt
          · exact hmin q hq
        · intro j q hj hjq
          cases j with
          | zero =>
            simp only [List.getElem?_cons_zero, Option.some.injEq] at hjq
            subst hjq
            exact hlt
          | succ j =>
            exact hfirst j q (by omega) (by simpa using hjq)
      · have hr2 : ∀ q ∈ rest,
            ¬ d obs.x obs.y q.x q.y < d obs.x obs.y pred.x pred.y :=
          fun q hq hlt => hr ⟨q, hq, hlt⟩
        refine ⟨0, pred, by simp, nearestLoopBy_none d obs rest _ _ hr2, h0, ?_, ?_⟩
        · intro q hq
          rcases List.mem_cons.1 hq with rfl | hq
          · exact le_refl _
          · exact not_lt.1 (hr2 q hq)
        · intro j q hj _
          omega
    · simp only [nearestLoopBy, if_neg h0]
      have hr : ∃ q ∈ rest, d obs.x obs.y q.x q.y < min_dist := by
        obtain ⟨q, hq, hlt⟩ := h
        rcases List.mem_cons.1 hq with rfl | hq
        · exact absurd hlt h0
        · exact ⟨q, hq, hlt⟩
      obtain ⟨k, p, hk, hres, hlt, hmin, hfirst⟩ := ih min_dist map_id hr
      refine ⟨k + 1, p, by simpa using hk, hres, hlt, ?_, ?_⟩
      · intro q hq
        rcases List.mem_cons.1 hq with rfl | hq
        · exact le_of_lt (lt_of_lt_of_le hlt (not_lt.1 h0))
        · exact hmin q hq
      · intro j q hj hjq
        cases j with
        | zero =>
          simp only [List.getElem?_cons_zero, Option.some.injEq] at hjq
          subst hjq
          exact lt_of_lt_of_le hlt (not_lt.1 h0)
        | succ j =>
          exact hfirst j q (by omega) (by simpa using hjq)

/-- The inner loop of `dataAssociation` is the loop with `dist` as a parameter,
at the Euclidean distance of the embedding. -/
theorem nearestLoop_eq_by (m : Libm α) (obs : LandmarkObs α) :
    ∀ (l : List (LandmarkObs α)) (min_dist : α) (map_id : Int),
      nearestLoop m obs l min_dist map_id =
        nearestLoopBy (dist m) obs l min_dist map_id := by
  intro l
  induction l with
  | nil => intro min_dist map_id; rfl
  | cons pred rest ih =>
    intro min_dist map_id
    simp only [nearestLoop, nearestLoopBy, ih]

/-- The embedding of `dataAssociation` is the one with `dist` as a parameter,
at the Euclidean distance of the embedding. -/
theorem dataAssociation_eq_by (m : Libm α)
    (predicted observations : List (LandmarkObs α)) :
    dataAssociation m predicted observations =
      dataAssociationBy (dist m) predicted observations := by
  simp only [dataAssociation, dataAssociationBy, nearestLoop_eq_by]

/-! ## Lemmas on the loop over the particle vector -/

/-- What a completed run of the loop over `particles` has done: the vector
keeps its length, the indices visited lie inside it, every visited particle
has been replaced by the result of the body and every other one is
untouched. -/
theorem forParticles_some (body : Nat → Particle α → Option (Particle α)) :
    ∀ (k i : Nat) (ps qs : List (Particle α)),
      forParticles body i k ps = some qs →
      qs.length = ps.length ∧ (0 < k → i + k ≤ ps.length) ∧
      ∀ (j : Nat) (p : Particle α), ps[j]? = some p →
        ((i ≤ j ∧ j < i + k) → ∃ q, body j p = some q ∧ qs[j]? = some q) ∧
        (¬ (i ≤ j ∧ j < i + k) → qs[j]? = some p) := by
  intro k
  induction k with
  | zero =>
    intro i ps qs h
    simp only [forParticles, Option.some.injEq] at h
    subst h
    refine ⟨rfl, fun h0 => absurd h0 (lt_irrefl 0), fun j p hj => ⟨fun hr => ?_, fun _ => hj⟩⟩
    omega
  | succ k ih =>
    intro i ps qs h
    unfold forParticles at h
    cases hi : ps[i]? with
    | none => simp [hi] at h
    | some p0 =>
      cases hb : body i p0 with
      | none => simp [hi, hb] at h
      | some q0 =>
        simp only [hi, hb] at h
        obtain ⟨hlen, hbound, hrest⟩ := ih (i + 1) (ps.set i q0) qs h
        have hilt : i < ps.length := by
          by_contra hcon
          rw [List.getElem?_eq_none (by omega)] at hi
          cases hi
        refine ⟨by simpa using hlen, fun _ => ?_, fun j p hj => ?_⟩
        · rcases Nat.eq_zero_or_pos k with hk | hk
          · omega
          · have := hbound hk
            simp only [List.length_set] at this
            omega
        · by_cases hji : j = i
          · subst hji
            have hpq : p = p0 := by
              rw [hi] at hj
              exact (Option.some.inj hj).symm
            subst hpq
            have hset : (ps.set j q0)[j]? = some q0 := by
              simp [List.getElem?_set, hilt]
            refine ⟨fun _ => ⟨q0, hb, (hrest j q0 hset).2 (by omega)⟩, fun hn => ?_⟩
            omega
          · have hset : (ps.set i q0)[j]? = some p := by
              rw [List.getElem?_set_ne (Ne.symm hji)]
              exact hj
            obtain ⟨h1, h2⟩ := hrest j p hset
            refine ⟨fun hr => h1 (by omega), fun hn => h2 (by omega)⟩

/-- The loop over `particles` completes when the indices it visits lie inside
the vector and the body succeeds on each particle it is given. -/
theorem forParticles_total (body : Nat → Particle α → Option (Particle α)) :
    ∀ (k i : Nat) (ps : List (Particle α)), i + k ≤ ps.length →
      (∀ (j : Nat) (p : Particle α), i ≤ j → j < i + k → ps[j]? = some p →
        ∃ q, body j p = some q) →
      ∃ qs, forParticles body i k ps = some qs := by
  intro k
  induction k with
  | zero => intro i ps _ _; exact ⟨ps, rfl⟩
  | succ k ih =>
    intro i ps h hbody
    have hilt : i < ps.length := by omega
    obtain ⟨q0, hq0⟩ := hbody i ps[i] (le_refl i) (by omega)
      (List.getElem?_eq_getElem hilt)
    unfold forParticles
    simp only [List.getElem?_eq_getElem hilt, hq0]
    refine ih (i + 1) (ps.set i q0) (by simp only [List.length_set]; omega) ?_
    intro j p hj1 hj2 hjp
    rw [List.getElem?_set_ne (by omega)] at hjp
    exact hbody j p (by omega) (by omega) hjp

/-! ## Lemmas on `resample` -/

/-- The local vector `weights` of `resample` holds the weights of the first
`num_particles` particles. -/
theorem weightsLoop_some (particles : List (Particle α)) :
    ∀ (k i : Nat) (acc ws : List α), weightsLoop particles i k acc = some ws →
      ws = acc ++ ((particles.drop i).take k).map (fun p => p.weight) ∧
      (0 < k → i + k ≤ particles.length) := by
  intro k
  induction k with
  | zero =>
    intro i acc ws h
    simp only [weightsLoop, Option.some.injEq] at h
    subst h
    exact ⟨by simp, fun h0 => absurd h0 (lt_irrefl 0)⟩
  | succ k ih =>
    intro i acc ws h
    unfold weightsLoop at h
    cases hi : particles[i]? with
    | none => simp [hi] at h
    | some p =>
      simp only [hi] at h
      obtain ⟨hws, hb⟩ := ih (i + 1) _ ws h
      have hilt : i < particles.length := by
        by_contra hcon
        rw [List.getElem?_eq_none (by omega)] at hi
        cases hi
      have hp : particles[i] = p := by
        rw [List.getElem?_eq_getElem hilt] at hi
        exact Option.some.inj hi
      refine ⟨?_, fun _ => ?_⟩
      · rw [hws, List.drop_eq_getElem_cons hilt, List.take_succ_cons, hp]
        simp
      · rcases Nat.eq_zero_or_pos k with hk | hk
        · omega
        · have := hb hk
          omega

/-- The loop that fills `weights` completes when the vector of particles holds
at least `num_particles` elements. -/
theorem weightsLoop_total (particles : List (Particle α)) :
    ∀ (k i : Nat) (acc : List α), i + k ≤ particles.length →
      ∃ ws, weightsLoop particles i k acc = some ws := by
  intro k
  induction k with
  | zero => intro i acc _; exact ⟨acc, rfl⟩
  | succ k ih =>
    intro i acc h
    have hilt : i < particles.length := by omega
    unfold weightsLoop
    simp only [List.getElem?_eq_getElem hilt]
    exact ih (i + 1) _ (by omega)

/-- The left fold of `max` is an upper bound of its start value and of the
list, and it is one of them. -/
theorem foldl_max_spec : ∀ (ws : List α) (w : α),
    w ≤ ws.foldl max w ∧ (∀ x ∈ ws, x ≤ ws.foldl max w) ∧
    (ws.foldl max w = w ∨ ws.foldl max w ∈ ws) := by
  intro ws
  induction ws with
  | nil => intro w; simp
  | cons a rest ih =>
    intro w
    obtain ⟨h1, h2, h3⟩ := ih (max w a)
    simp only [List.foldl_cons, List.mem_cons]
    refine ⟨le_trans (le_max_left w a) h1, ?_, ?_⟩
    · intro x hx
      rcases hx with rfl | hx
      · exact le_trans (le_max_right w x) h1
      · exact h2 x hx
    · rcases h3 with h3 | h3
      · rcases max_choice w a with hm | hm
        · left; rw [h3, hm]
        · right; left; rw [h3, hm]
      · right; right; exact h3

/-- The value of `max_element` is an element of the vector and bounds every
element. -/
theorem max_element_spec (ws : List α) (mw : α) (h : max_element ws = some mw) :
    mw ∈ ws ∧ ∀ x ∈ ws, x ≤ mw := by
  cases ws with
  | nil => simp [max_element] at h
  | cons w rest =>
    simp only [max_element, Option.some.injEq] at h
    obtain ⟨h1, h2, h3⟩ := foldl_max_spec rest w
    rw [h] at h1 h2 h3
    refine ⟨?_, ?_⟩
    · rcases h3 with h3 | h3
      · rw [h3]; exact List.mem_cons_self _ _
      · exact List.mem_cons_of_mem _ h3
    · intro x hx
      rcases List.mem_cons.1 hx with rfl | hx
      · exact h1
      · exact h2 x hx

/-- What a completed walk `while (beta > weights[index])` ends with: an index
inside the vector and a `beta` not above the weight at that index; either the
body never ran, or the final `beta` is positive. -/
theorem wheel_some (weights : List α) (n : Nat) :
    ∀ (fuel : Nat) (beta : α) (index : Nat) (r : α × Nat),
      wheel weights n fuel beta index = some r →
      (∃ w, weights[r.2]? = some w ∧ r.1 ≤ w) ∧
      (r = (beta, index) ∨ 0 < r.1) := by
  intro fuel
  induction fuel with
  | zero => intro beta index r h; simp [wheel] at h
  | succ fuel ih =>
    intro beta index r h
    unfold wheel at h
    cases hi : weights[index]? with
    | none => simp [hi] at h
    | some w =>
      simp only [hi] at h
      by_cases hgt : beta > w
      · simp only [if_pos hgt] at h
        obtain ⟨h1, h2⟩ := ih _ _ r h
        refine ⟨h1, Or.inr ?_⟩
        rcases h2 with h2 | h2
        · rw [h2]
          exact sub_pos.2 hgt
        · exact h2
      · simp only [if_neg hgt, Option.some.injEq] at h
        subst h
        exact ⟨⟨w, hi, not_lt.1 hgt⟩, Or.inl rfl⟩

/-- Stepping the index forward inside the cycle. -/
theorem succ_mod_add (n index d : Nat) :
    ((index + 1) % n + d) % n = (index + (d + 1)) % n := by
  rw [Nat.mod_add_mod]
  congr 1
  omega

/-- The walk terminates: when the weights are non-negative, the weight at
index `j` is positive and `beta` is at most `N` times that weight, fuel
`N * n + d + 1` is enough, `d` being the number of steps from `index` to
`j`. -/
theorem wheel_total (weights : List α) (n j : Nat) (wj : α)
    (hn : weights.length = n) (hj : weights[j]? = some wj) (hpos : 0 < wj)
    (hnn : ∀ w ∈ weights, 0 ≤ w) :
    ∀ (μ N d : Nat) (beta : α) (index : Nat), N * n + d ≤ μ → d < n →
      (index + d) % n = j → index < n → beta ≤ N * wj →
      ∃ r, wheel weights n (μ + 1) beta index = some r := by
  intro μ
  induction μ with
  | zero =>
    intro N d beta index hμ hd hmod hidx hbeta
    have hd0 : d = 0 := by omega
    subst hd0
    have hN : N = 0 := by
      rcases Nat.eq_zero_or_pos N with h | h
      · exact h
      · have : n ≤ N * n := Nat.le_mul_of_pos_left n h
        omega
    subst hN
    have hij : index = j := by
      rw [Nat.add_zero, Nat.mod_eq_of_lt hidx] at hmod
      exact hmod
    subst hij
    have hb : ¬ beta > wj := by
      simp only [Nat.cast_zero, zero_mul] at hbeta
      exact not_lt.2 (le_trans hbeta (le_of_lt hpos))
    unfold wheel
    simp only [hj, if_neg hb]
    exact ⟨_, rfl⟩
  | succ μ ih =>
    intro N d beta index hμ hd hmod hidx hbeta
    have hilt : index < weights.length := by omega
    unfold wheel
    simp only [List.getElem?_eq_getElem hilt]
    by_cases hgt : beta > weights[index]
    · simp only [if_pos hgt]
      have hnpos : 0 < n := by omega
      rcases Nat.eq_zero_or_pos d with hd0 | hdpos
      · subst hd0
        have hij : index = j := by
          rw [Nat.add_zero, Nat.mod_eq_of_lt hidx] at hmod
          exact hmod
        subst hij
        have hw : weights[index] = wj := by
          rw [List.getElem?_eq_getElem hilt] at hj
          exact Option.some.inj hj
        rw [hw] at hgt ⊢
        have hN : 0 < N := by
          rcases Nat.eq_zero_or_pos N with h | h
          · subst h
            simp only [Nat.cast_zero, zero_mul] at hbeta
            exact absurd (lt_of_lt_of_le hgt hbeta) (not_lt.2 (le_of_lt hpos))
          · exact h
        obtain ⟨N1, rfl⟩ : ∃ N1, N = N1 + 1 := ⟨N - 1, by omega⟩
        refine ih N1 (n - 1) (beta - wj) ((index + 1) % n) ?_ (by omega) ?_
          (Nat.mod_lt _ hnpos) ?_
        · rw [Nat.succ_mul] at hμ
          omega
        · rw [succ_mod_add]
          have : index + (n - 1 + 1) = index + n := by omega
          rw [this, Nat.add_mod_right, Nat.mod_eq_of_lt hidx]
        · push_cast at hbeta
          linarith
      · obtain ⟨d1, rfl⟩ : ∃ d1, d = d1 + 1 := ⟨d - 1, by omega⟩
        refine ih N d1 (beta - weights[index]) ((index + 1) % n) (by omega) (by omega)
          ?_ (Nat.mod_lt _ hnpos) ?_
        · rw [succ_mod_add]
          exact hmod
        · have := hnn weights[index] (List.getElem_mem _)
          linarith
    · simp only [if_neg hgt]
      exact ⟨_, rfl⟩

/-- What a completed run of the main loop of `resample` has built: one
particle appended per iteration, each a copy of a particle of the old set. -/
theorem resampleLoop_some (fuel : Nat) (particles : List (Particle α))
    (weights : List α) (n : Nat) (draws : Nat → α) :
    ∀ (k i : Nat) (beta : α) (index : Nat) (acc out : List (Particle α)),
      resampleLoop fuel particles weights n draws i k beta index acc = some out →
      out.length = acc.length + k ∧ ∀ q ∈ out, q ∈ acc ∨ q ∈ particles := by
  intro k
  induction k with
  | zero =>
    intro i beta index acc out h
    simp only [resampleLoop, Option.some.injEq] at h
    subst h
    exact ⟨rfl, fun q hq => Or.inl hq⟩
  | succ k ih =>
    intro i beta index acc out h
    unfold resampleLoop at h
    cases hw : wheel weights n fuel (beta + draws i * 2) index with
    | none => simp [hw] at h
    | some r =>
      obtain ⟨beta1, index1⟩ := r
      simp only [hw] at h
      cases hp : particles[index1]? with
      | none => simp [hp] at h
      | some p =>
        simp only [hp] at h
        obtain ⟨hlen, hmem⟩ := ih _ _ _ _ out h
        refine ⟨by simp only [List.length_append, List.length_singleton] at hlen; omega, ?_⟩
        intro q hq
        rcases hmem q hq with hq1 | hq1
        · rcases List.mem_append.1 hq1 with hq2 | hq2
          · exact Or.inl hq2
          · rw [List.mem_singleton.1 hq2]
            exact Or.inr (List.getElem?_mem hp)
        · exact Or.inr hq1

/-- Once `beta` is positive when a walk starts, every particle copied from
then on has a positive weight. -/
theorem resampleLoop_positive (fuel : Nat) (particles : List (Particle α))
    (weights : List α) (n : Nat) (draws : Nat → α)
    (hagree : ∀ (idx : Nat) (w : α) (p : Particle α),
      weights[idx]? = some w → particles[idx]? = some p → p.weight = w)
    (hdraws : ∀ i, 0 ≤ draws i) :
    ∀ (k i : Nat) (beta : α) (index : Nat) (acc out : List (Particle α)),
      resampleLoop fuel particles weights n draws i k beta index acc = some out →
      0 < beta + draws i * 2 →
      ∀ q ∈ out, q ∈ acc ∨ (q ∈ particles ∧ 0 < q.weight) := by
  intro k
  induction k with
  | zero =>
    intro i beta index acc out h _
    simp only [resampleLoop, Option.some.injEq] at h
    subst h
    exact fun q hq => Or.inl hq
  | succ k ih =>
    intro i beta index acc out h hb
    unfold resampleLoop at h
    cases hw : wheel weights n fuel (beta + draws i * 2) index with
    | none => simp [hw] at h
    | some r =>
      obtain ⟨beta1, index1⟩ := r
      simp only [hw] at h
      cases hp : particles[index1]? with
      | none => simp [hp] at h
      | some p =>
        simp only [hp] at h
        obtain ⟨⟨w, hw1, hw2⟩, hw3⟩ := wheel_some weights n _ _ _ _ hw
        have hb1 : 0 < beta1 := by
          rcases hw3 with hw3 | hw3
          · have := congrArg Prod.fst hw3
            simp only at this
            rw [this]
            exact hb
          · exact hw3
        have hpw : 0 < p.weight := by
          rw [hagree index1 w p hw1 hp]
          exact lt_of_lt_of_le hb1 hw2
        have hnext : 0 < beta1 + draws (i + 1) * 2 := by
          have := hdraws (i + 1)
          linarith
        intro q hq
        rcases ih _ _ _ _ out h hnext q hq with hq1 | hq1
        · rcases List.mem_append.1 hq1 with hq2 | hq2
          · exact Or.inl hq2
          · rw [List.mem_singleton.1 hq2]
            exact Or.inr ⟨List.getElem?_mem hp, hpw⟩
        · exact Or.inr hq1

/-- The main loop of `resample` completes with fuel `4 * n + 1` for every
walk, when the weights are non-negative and every draw lies between 0 and the
largest weight. -/
theorem resampleLoop_total (particles : List (Particle α))
    (weights : List α) (n : Nat) (draws : Nat → α) (mw : α)
    (hn : weights.length = n) (hlen : n ≤ particles.length)
    (hnn : ∀ w ∈ weights, 0 ≤ w) (hmax : max_element weights = some mw)
    (hdraws : ∀ i, 0 ≤ draws i ∧ draws i ≤ mw) :
    ∀ (k i : Nat) (beta : α) (index : Nat) (acc : List (Particle α)),
      index < n → 0 ≤ beta → beta ≤ mw →
      ∃ out, resampleLoop (4 * n + 1) particles weights n draws i k beta index acc
        = some out := by
  obtain ⟨hmem, hub⟩ := max_element_spec weights mw hmax
  have hmw0 : 0 ≤ mw := hnn mw hmem
  intro k
  induction k with
  | zero => intro i beta index acc _ _ _; exact ⟨acc, rfl⟩
  | succ k ih =>
    intro i beta index acc hidx hb0 hb1
    have hd := hdraws i
    have hwheel : ∃ r, wheel weights n (4 * n + 1) (beta + draws i * 2) index = some r := by
      rcases lt_or_eq_of_le hmw0 with hpos | hzero
      · obtain ⟨j, hj⟩ := List.mem_iff_getElem?.1 hmem
        have hjn : j < n := by
          rw [← hn]
          by_contra hcon
          rw [List.getElem?_eq_none (by omega)] at hj
          cases hj
        refine wheel_total weights n j mw hn hj hpos hnn (4 * n) 3
          ((j + n - index) % n) _ index ?_ (Nat.mod_lt _ (by omega)) ?_ hidx ?_
        · have := Nat.mod_lt (j + n - index) (show n > 0 by omega)
          omega
        · rw [Nat.add_mod_mod]
          have : index + (j + n - index) = j + n := by omega
          rw [this, Nat.add_mod_right, Nat.mod_eq_of_lt hjn]
        · push_cast
          linarith [hd.2]
      · have hilt : index < weights.length := by omega
        have hwi := hnn weights[index] (List.getElem_mem _)
        have hng : ¬ beta + draws i * 2 > weights[index] := by
          have h1 := hd.2
          rw [← hzero] at h1 hb1
          exact not_lt.2 (by linarith)
        unfold wheel
        simp only [List.getElem?_eq_getElem hilt, if_neg hng]
        exact ⟨_, rfl⟩
    obtain ⟨⟨beta1, index1⟩, hr⟩ := hwheel
    obtain ⟨⟨w, hw1, hw2⟩, hw3⟩ := wheel_some weights n _ _ _ _ hr
    simp only at hw1 hw2 hw3
    have hi1 : index1 < n := by
      rw [← hn]
      by_contra hcon
      rw [List.getElem?_eq_none (by omega)] at hw1
      cases hw1
    have hb1pos : 0 ≤ beta1 := by
      rcases hw3 with hw3 | hw3
      · have := congrArg Prod.fst hw3
        simp only at this
        rw [this]
        linarith [hd.1]
      · exact le_of_lt hw3
    have hb1le : beta1 ≤ mw := le_trans hw2 (hub w (List.getElem?_mem hw1))
    have hp : particles[index1]? = some particles[index1] :=
      List.getElem?_eq_getElem (by omega)
    obtain ⟨out, hout⟩ := ih (i + 1) beta1 index1 (acc ++ [particles[index1]]) hi1 hb1pos hb1le
    refine ⟨out, ?_⟩
    unfold resampleLoop
    simp only [hr, hp]
    exact hout

/-- What a completed call of `resample` leaves: `num_particles` particles,
each a copy of a particle of the old set; the other members are unchanged. -/
theorem resample_some (fuel start : Nat) (draws : Nat → α)
    (pf pf1 : ParticleFilter α) (h : resample fuel start draws pf = some pf1) :
    pf1.num_particles = pf.num_particles ∧
    pf1.particles.length = pf.num_particles ∧
    ∀ q ∈ pf1.particles, q ∈ pf.particles := by
  unfold resample at h
  cases hws : weightsLoop pf.particles 0 pf.num_particles [] with
  | none => simp [hws] at h
  | some ws =>
    simp only [hws] at h
    cases hmax : max_element ws with
    | none => simp [hmax] at h
    | some mw =>
      simp only [hmax] at h
      cases hloop : resampleLoop fuel pf.particles ws pf.num_particles draws 0
          pf.num_particles 0 start [] with
      | none => simp [hloop] at h
      | some out =>
        simp only [hloop, Option.some.injEq] at h
        subst h
        obtain ⟨h1, h2⟩ := resampleLoop_some _ _ _ _ _ _ _ _ _ _ _ hloop
        refine ⟨rfl, by simpa using h1, fun q hq => ?_⟩
        rcases h2 q hq with h3 | h3
        · cases h3
        · exact h3

/-- The vector `weights` of `resample` when the particle vector holds exactly
`num_particles` elements. -/
theorem weightsLoop_full (particles : List (Particle α)) (n : Nat)
    (hlen : particles.length = n) :
    weightsLoop particles 0 n [] = some (particles.map fun p => p.weight) := by
  obtain ⟨ws, hws⟩ := weightsLoop_total particles n 0 [] (by omega)
  obtain ⟨h1, _⟩ := weightsLoop_some particles n 0 [] ws hws
  rw [hws, h1, ← hlen]
  simp

/-- The call of `resample` completes, with fuel `4 * num_particles + 1` for
each walk, when the weights are non-negative and the draws lie between 0 and
the largest weight. -/
theorem resample_total (start : Nat) (draws : Nat → α) (pf : ParticleFilter α)
    (mw : α) (hlen : pf.particles.length = pf.num_particles)
    (hnn : ∀ p ∈ pf.particles, 0 ≤ p.weight)
    (hstart : start < pf.num_particles)
    (hmax : max_element (pf.particles.map fun p => p.weight) = some mw)
    (hdraws : ∀ i, 0 ≤ draws i ∧ draws i ≤ mw) :
    ∃ pf1, resample (4 * pf.num_particles + 1) start draws pf = some pf1 := by
  have hnn2 : ∀ w ∈ pf.particles.map (fun p => p.weight), 0 ≤ w := by
    intro w hw
    obtain ⟨p, hp, rfl⟩ := List.mem_map.1 hw
    exact hnn p hp
  obtain ⟨hmem, _⟩ := max_element_spec _ mw hmax
  obtain ⟨out, hout⟩ := resampleLoop_total pf.particles
    (pf.particles.map fun p => p.weight) pf.num_particles draws mw
    (by simp [hlen]) (by omega) hnn2 hmax hdraws pf.num_particles 0 0 start []
    hstart (le_refl 0) (hnn2 mw hmem)
  refine ⟨{ pf with particles := out }, ?_⟩
  unfold resample
  simp only [weightsLoop_full pf.particles pf.num_particles hlen, hmax, hout]

/-- Whenever the first draw is positive, every particle a completed call of
`resample` has copied has a positive weight. -/
theorem resample_positive (fuel start : Nat) (draws : Nat → α)
    (pf pf1 : ParticleFilter α)
    (hlen : pf.particles.length = pf.num_particles)
    (hdraws : ∀ i, 0 ≤ draws i) (hfirst : 0 < draws 0)
    (h : resample fuel start draws pf = some pf1) :
    ∀ q ∈ pf1.particles, q ∈ pf.particles ∧ 0 < q.weight := by
  unfold resample at h
  rw [weightsLoop_full pf.particles pf.num_particles hlen] at h
  simp only at h
  cases hmax : max_element (pf.particles.map fun p => p.weight) with
  | none => simp [hmax] at h
  | some mw =>
    simp only [hmax] at h
    cases hloop : resampleLoop fuel pf.particles (pf.particles.map fun p => p.weight)
        pf.num_particles draws 0 pf.num_particles 0 start [] with
    | none => simp [hloop] at h
    | some out =>
      simp only [hloop, Option.some.injEq] at h
      subst h
      intro q hq
      have hagree : ∀ (idx : Nat) (w : α) (p : Particle α),
          (pf.particles.map fun p => p.weight)[idx]? = some w →
          pf.particles[idx]? = some p → p.weight = w := by
        intro idx w p h1 h2
        simpa [List.getElem?_map, h2] using h1
      rcases resampleLoop_positive fuel pf.particles _ pf.num_particles draws hagree
        hdraws _ _ _ _ _ _ hloop (by linarith) q hq with h3 | h3
      · cases h3
      · exact h3

/-! ## Lemmas on `init` and on sequences of calls -/

/-- The loop of `init` appends one particle per iteration. -/
theorem initLoop_some (draws : Nat → α × α × α) (weights : List α) :
    ∀ (k i : Nat) (ps out : List (Particle α)),
      initLoop draws weights i k ps = some out → out.length = ps.length + k := by
  intro k
  induction k with
  | zero =>
    intro i ps out h
    simp only [initLoop, Option.some.injEq] at h
    subst h
    rfl
  | succ k ih =>
    intro i ps out h
    unfold initLoop at h
    cases hw : weights[i]? with
    | none => simp [hw] at h
    | some w =>
      simp only [hw] at h
      have := ih _ _ _ h
      simp only [List.length_append, List.length_singleton] at this
      omega

/-- The loop of `init` completes when `weights` covers the indices it reads. -/
theorem initLoop_total (draws : Nat → α × α × α) (weights : List α) :
    ∀ (k i : Nat) (ps : List (Particle α)), i + k ≤ weights.length →
      ∃ out, initLoop draws weights i k ps = some out := by
  intro k
  induction k with
  | zero => intro i ps _; exact ⟨ps, rfl⟩
  | succ k ih =>
    intro i ps h
    have hilt : i < weights.length := by omega
    unfold initLoop
    simp only [List.getElem?_eq_getElem hilt]
    exact ih (i + 1) _ (by omega)

/-- The call of `init` always completes; it sets `num_particles` to 100 and
appends 100 particles to the particle vector. -/
theorem init_total (x y theta : α) (std : α × α × α) (draws : Nat → α × α × α)
    (pf : ParticleFilter α) :
    ∃ pf1, init x y theta std draws pf = some pf1 ∧ pf1.num_particles = 100 ∧
      pf1.is_initialized = true ∧
      pf1.particles.length = pf.particles.length + 100 := by
  obtain ⟨out, hout⟩ := initLoop_total draws (List.replicate 100 (1 : α)) 100 0
    pf.particles (by simp)
  refine ⟨⟨100, true, List.replicate 100 (1 : α), out⟩, ?_, rfl, rfl, ?_⟩
  · simp only [init, hout]
  · exact initLoop_some draws _ _ _ _ _ hout

/-- A completed call of `prediction` keeps `num_particles` and the length of
the particle vector. -/
theorem prediction_some_length (m : Libm α) (delta_t : α) (std_pos : α × α × α)
    (velocity yaw_rate : α) (noise : Nat → α × α × α) (pf pf1 : ParticleFilter α)
    (h : prediction m delta_t std_pos velocity yaw_rate noise pf = some pf1) :
    pf1.num_particles = pf.num_particles ∧
    pf1.particles.length = pf.particles.length := by
  unfold prediction at h
  cases hf : forParticles
      (fun i p => some (predictParticle m delta_t velocity yaw_rate (noise i) p))
      0 pf.num_particles pf.particles with
  | none => simp [hf] at h
  | some qs =>
    simp only [hf, Option.some.injEq] at h
    subst h
    exact ⟨rfl, (forParticles_some _ _ _ _ _ hf).1⟩

/-- A completed call of `updateWeights` keeps `num_particles` and the length
of the particle vector. -/
theorem updateWeights_some_length (m : Libm α) (sensor_range : α)
    (std_landmark : α × α) (observations : List (LandmarkObs α))
    (map_landmarks : Map α) (unset : Nat → Nat → α × α)
    (pf pf1 : ParticleFilter α)
    (h : updateWeights m sensor_range std_landmark observations map_landmarks
      unset pf = some pf1) :
    pf1.num_particles = pf.num_particles ∧
    pf1.particles.length = pf.particles.length := by
  unfold updateWeights at h
  split at h
  · cases h
  · rename_i qs hf
    simp only [Option.some.injEq] at h
    subst h
    exact ⟨rfl, (forParticles_some _ _ _ _ _ hf).1⟩

/-- A sequence of calls without `init` keeps the count invariant. -/
theorem run_no_init_invariant (m : Libm α) :
    ∀ (ops : List (Op α)) (s t : ParticleFilter α),
      (∀ op ∈ ops, op.isInit = false) →
      s.particles.length = s.num_particles → run m ops s = some t →
      t.particles.length = t.num_particles ∧ t.num_particles = s.num_particles := by
  intro ops
  induction ops with
  | nil =>
    intro s t _ hs h
    simp only [run, Option.some.injEq] at h
    subst h
    exact ⟨hs, rfl⟩
  | cons op ops ih =>
    intro s t hops hs h
    unfold run at h
    cases hstep : step m op s with
    | none => simp [hstep] at h
    | some s1 =>
      simp only [hstep] at h
      have hop := hops op (List.mem_cons_self _ _)
      have hs1 : s1.particles.length = s1.num_particles ∧
          s1.num_particles = s.num_particles := by
        cases op with
        | init x y theta std draws => simp [Op.isInit] at hop
        | prediction delta_t std_pos velocity yaw_rate noise =>
          obtain ⟨h1, h2⟩ := prediction_some_length m delta_t std_pos velocity
            yaw_rate noise s s1 hstep
          exact ⟨by omega, h1⟩
        | updateWeights sensor_range std_landmark observations map_landmarks unset =>
          obtain ⟨h1, h2⟩ := updateWeights_some_length m sensor_range std_landmark
            observations map_landmarks unset s s1 hstep
          exact ⟨by omega, h1⟩
        | resample fuel start draws =>
          obtain ⟨h1, h2, _⟩ := resample_some fuel start draws s s1 hstep
          exact ⟨by omega, h1⟩
      obtain ⟨h1, h2⟩ := ih s1 t (fun o ho => hops o (List.mem_cons_of_mem _ ho)) hs1.1 h
      exact ⟨h1, by omega⟩

/-- The particles the loop of `init` appends: the one appended in iteration
`i + t` carries the id `i + t`, the three draws of that iteration and the
weight `weights[i + t]`; the particles already there are untouched. -/
theorem initLoop_get (draws : Nat → α × α × α) (weights : List α) :
    ∀ (k i : Nat) (ps out : List (Particle α)),
      initLoop draws weights i k ps = some out →
      ∀ (j : Nat), (j < ps.length → out[j]? = ps[j]?) ∧
        (∀ (t : Nat), t < k → j = ps.length + t →
          ∃ w, weights[i + t]? = some w ∧
            out[j]? = some ⟨((i + t : Nat) : Int), (draws (i + t)).1,
              (draws (i + t)).2.1, (draws (i + t)).2.2, w, [], [], []⟩) := by
  intro k
  induction k with
  | zero =>
    intro i ps out h j
    simp only [initLoop, Option.some.injEq] at h
    subst h
    exact ⟨fun _ => rfl, fun t ht _ => absurd ht (Nat.not_lt_zero t)⟩
  | succ k ih =>
    intro i ps out h j
    unfold initLoop at h
    cases hw : weights[i]? with
    | none => simp [hw] at h
    | some w =>
      simp only [hw] at h
      obtain ⟨h1, h2⟩ := ih _ _ _ h j
      simp only [List.length_append, List.length_singleton] at h1 h2
      refine ⟨fun hj => ?_, fun t ht hjt => ?_⟩
      · rw [h1 (by omega), List.getElem?_append_left hj]
      · cases t with
        | zero =>
          refine ⟨w, hw, ?_⟩
          rw [h1 (by omega), hjt]
          simp
        | succ t =>
          obtain ⟨w1, hw1, hout⟩ := h2 t (by omega) (by omega)
          have hidx : i + 1 + t = i + (t + 1) := by omega
          rw [hidx] at hw1 hout
          exact ⟨w1, hw1, hout⟩

/-- On a filter whose particle vector is empty, `init` completes and leaves
100 particles; the particle of index `i` carries the id `i`, the draws of
iteration `i` and the weight 1. -/
theorem init_fresh (x y theta : α) (std : α × α × α) (draws : Nat → α × α × α)
    (pf : ParticleFilter α) (hfresh : pf.particles = []) :
    ∃ pf1, init x y theta std draws pf = some pf1 ∧ pf1.num_particles = 100 ∧
      pf1.is_initialized = true ∧ pf1.particles.length = 100 ∧
      ∀ (i : Nat), i < 100 → pf1.particles[i]? =
        some ⟨(i : Int), (draws i).1, (draws i).2.1, (draws i).2.2, 1, [], [], []⟩ := by
  obtain ⟨out, hout⟩ := initLoop_total draws (List.replicate 100 (1 : α)) 100 0
    pf.particles (by simp)
  have hlen := initLoop_some draws _ _ _ _ _ hout
  rw [hfresh] at hout hlen
  refine ⟨⟨100, true, List.replicate 100 (1 : α), out⟩, ?_, rfl, rfl, ?_, ?_⟩
  · simp only [init, hfresh, hout]
  · simpa using hlen
  · intro i hi
    obtain ⟨w, hw, hget⟩ := (initLoop_get draws _ _ _ _ _ hout i).2 i hi (by simp)
    simp only [Nat.zero_add] at hw hget
    rw [List.getElem?_replicate] at hw
    simp only [hi, if_true, Option.some.injEq] at hw
    rw [hget, ← hw]

/-! ## Lemmas on `updateWeights` -/

/-- The lookup of line 200 finds a landmark when one with the id exists. -/
theorem scanPredictions_of_mem (prediction_id : Int) :
    ∀ (preds : List (LandmarkObs α)), (∃ p ∈ preds, p.id = prediction_id) →
      ∃ r, scanPredictions prediction_id preds = some r := by
  intro preds
  induction preds with
  | nil => intro h; obtain ⟨p, hp, _⟩ := h; cases hp
  | cons a rest ih =>
    intro h
    unfold scanPredictions
    by_cases ha : a.id = prediction_id
    · exact ⟨(a.x, a.y), by simp only [if_pos ha]⟩
    · simp only [if_neg ha]
      obtain ⟨p, hp, hid⟩ := h
      rcases List.mem_cons.1 hp with rfl | hp
      · exact absurd hid ha
      · exact ih ⟨p, hp, hid⟩

/-- The scoring loop completes when every lookup does. -/
theorem weightLoop_total (m : Libm α) (std_landmark : α × α) (i : Nat)
    (preds : List (LandmarkObs α)) (unset : Nat → α × α) :
    ∀ (obs : List (LandmarkObs α)),
      (∀ o ∈ obs, ∀ u, ∃ r, lookupPrediction i preds o.id u = some r) →
      ∀ (j : Nat) (w : α), ∃ r,
        weightLoop m std_landmark i preds unset j obs w = some r := by
  intro obs
  induction obs with
  | nil => intro _ j w; exact ⟨w, rfl⟩
  | cons o rest ih =>
    intro h j w
    obtain ⟨pred, hpred⟩ := h o (List.mem_cons_self _ _) (unset j)
    unfold weightLoop
    simp only [hpred]
    exact ih (fun o1 ho1 => h o1 (List.mem_cons_of_mem _ ho1)) _ _

/-- The weight of a particle is computed without a read outside `predictions`
when the particle index is not below the number of gated landmarks (the
lookup loop does not run), or when every transformed observation has a gated
landmark at distance below `DBL_MAX` (the lookup loop finds the match). -/
theorem particleWeight_total (m : Libm α) (sensor_range : α)
    (std_landmark : α × α) (observations : List (LandmarkObs α))
    (map_landmarks : Map α) (unset : Nat → Nat → α × α) (i : Nat)
    (p : Particle α)
    (h : (predictions sensor_range p.x p.y map_landmarks.landmark_list).length ≤ i ∨
      ∀ o ∈ map_observations m p.x p.y p.theta observations,
        ∃ q ∈ predictions sensor_range p.x p.y map_landmarks.landmark_list,
          dist m o.x o.y q.x q.y < DBL_MAX) :
    ∃ w, particleWeight m sensor_range std_landmark observations map_landmarks
      unset i p = some w := by
  unfold particleWeight
  apply weightLoop_total
  intro o ho u
  unfold lookupPrediction
  rcases h with h | h
  · exact ⟨u, by simp only [if_neg (not_lt.2 h)]⟩
  · by_cases hi : i < (predictions sensor_range p.x p.y map_landmarks.landmark_list).length
    · simp only [if_pos hi]
      apply scanPredictions_of_mem
      simp only [dataAssociation, List.mem_map] at ho
      obtain ⟨o0, ho0, rfl⟩ := ho
      obtain ⟨k, q, hk, hres, _⟩ := nearestLoop_some m o0
        (predictions sensor_range p.x p.y map_landmarks.landmark_list) DBL_MAX (-1)
        (h o0 ho0)
      exact ⟨q, List.getElem?_mem hk, hres.symm⟩
    · exact ⟨u, by simp only [if_neg hi]⟩

/-- What a completed call of `updateWeights` has done to the particle at an
index below `num_particles`: only its weight is replaced, by the weight
computed for it. -/
theorem updateWeights_some (m : Libm α) (sensor_range : α)
    (std_landmark : α × α) (observations : List (LandmarkObs α))
    (map_landmarks : Map α) (unset : Nat → Nat → α × α)
    (pf pf1 : ParticleFilter α)
    (h : updateWeights m sensor_range std_landmark observations map_landmarks
      unset pf = some pf1) :
    ∀ (i : Nat) (p : Particle α), pf.particles[i]? = some p →
      (i < pf.num_particles → ∃ w, particleWeight m sensor_range std_landmark
        observations map_landmarks unset i p = some w ∧
        pf1.particles[i]? = some { p with weight := w }) ∧
      (pf.num_particles ≤ i → pf1.particles[i]? = some p) := by
  unfold updateWeights at h
  split at h
  · cases h
  · rename_i qs hf
    simp only [Option.some.injEq] at h
    subst h
    obtain ⟨_, _, hrest⟩ := forParticles_some _ _ _ _ _ hf
    intro i p hp
    obtain ⟨h1, h2⟩ := hrest i p hp
    refine ⟨fun hi => ?_, fun hi => h2 (by omega)⟩
    obtain ⟨q, hq, hget⟩ := h1 ⟨Nat.zero_le _, by omega⟩
    cases hw : particleWeight m sensor_range std_landmark observations
        map_landmarks unset i p with
    | none => simp [hw] at hq
    | some w =>
      simp only [hw, Option.some.injEq] at hq
      exact ⟨w, rfl, by rw [hget, ← hq]⟩

/-- The call of `updateWeights` completes when the particle vector holds at
least `num_particles` elements and the weight of each of them is computed
without a read outside `predictions`. -/
theorem updateWeights_total (m : Libm α) (sensor_range : α)
    (std_landmark : α × α) (observations : List (LandmarkObs α))
    (map_landmarks : Map α) (unset : Nat → Nat → α × α)
    (pf : ParticleFilter α)
    (hlen : pf.num_particles ≤ pf.particles.length)
    (hw : ∀ (i : Nat) (p : Particle α), i < pf.num_particles →
      pf.particles[i]? = some p →
      ∃ w, particleWeight m sensor_range std_landmark observations map_landmarks
        unset i p = some w) :
    ∃ pf1, updateWeights m sensor_range std_landmark observations map_landmarks
      unset pf = some pf1 := by
  obtain ⟨qs, hqs⟩ := forParticles_total
    (fun i p =>
      match particleWeight m sensor_range std_landmark observations
          map_landmarks unset i p with
      | none => none
      | some w => some { p with weight := w })
    pf.num_particles 0 pf.particles (by omega)
    (fun j p _ hj hp => by
      obtain ⟨w, hw1⟩ := hw j p (by omega) hp
      exact ⟨{ p with weight := w }, by simp only [hw1]⟩)
  exact ⟨{ pf with particles := qs }, by simp only [updateWeights, hqs]⟩

/-! # Claims -/

/-! ## Claims on `dataAssociation` -/

/-- C1 (as amended): nearest neighbour on the distances as the helper `dist`
returns them.  `d` is the value `dist` returns (a `double`, `+infinity` read
as a value above `DBL_MAX`; no NaN, which finite coordinates never give).
For every `predicted` and `observations`, the observation at index `i` of the
result carries: when some element of `predicted` has a returned distance below
the initial `min_dist` (`DBL_MAX`), the id of the first element of
`predicted`, in list order, whose returned distance to that observation is
minimal over all of `predicted`; and otherwise the sentinel `-1`. -/
theorem dataAssociationBy_first_minimum (d : α → α → α → α → α)
    (predicted observations : List (LandmarkObs α)) (i : Nat)
    (obs : LandmarkObs α) (hobs : observations[i]? = some obs) :
    ∃ (r : LandmarkObs α),
      (dataAssociationBy d predicted observations)[i]? = some r ∧
      ((∃ q ∈ predicted, d obs.x obs.y q.x q.y < DBL_MAX) →
        ∃ (k : Nat) (p : LandmarkObs α),
          predicted[k]? = some p ∧ r.id = p.id ∧
          (∀ q ∈ predicted, d obs.x obs.y p.x p.y ≤ d obs.x obs.y q.x q.y) ∧
          (∀ (j : Nat) (q : LandmarkObs α), j < k → predicted[j]? = some q →
            d obs.x obs.y p.x p.y < d obs.x obs.y q.x q.y)) ∧
      ((∀ q ∈ predicted, ¬ d obs.x obs.y q.x q.y < DBL_MAX) → r.id = -1) := by
  refine ⟨{ obs with id := nearestLoopBy d obs predicted DBL_MAX (-1) }, ?_, ?_, ?_⟩
  · simp [dataAssociationBy, List.getElem?_map, hobs]
  · intro hnear
    obtain ⟨k, p, hk, hres, _, hmin, hfirst⟩ :=
      nearestLoopBy_some d obs predicted DBL_MAX (-1) hnear
    exact ⟨k, p, hk, hres, hmin, hfirst⟩
  · intro hfar
    exact nearestLoopBy_none d obs predicted DBL_MAX (-1) hfar

/-- Witness for C1: the example of the specification, predicted
`[(id=1, 5, 5), (id=2, 0, 0)]` and one observation at `(0.1, 0.1)`, with the
Euclidean distance over the reals for `dist`: the observation gets id 2. -/
theorem dataAssociationBy_first_minimum_witness :
    ∃ (r : LandmarkObs ℝ),
      (dataAssociationBy (dist ⟨Real.sqrt, Real.sin, Real.cos, Real.exp, Real.pi⟩)
        [⟨1, 5, 5⟩, ⟨2, 0, 0⟩] [⟨0, 0.1, 0.1⟩])[0]? = some r ∧ r.id = 2 := by
  have h1 : dist ⟨Real.sqrt, Real.sin, Real.cos, Real.exp, Real.pi⟩ 0.1 0.1 0 0 <
      (DBL_MAX : ℝ) := by
    simp only [dist, DBL_MAX]
    rw [Real.sqrt_lt' (by norm_num)]
    norm_num
  have h2 : dist ⟨Real.sqrt, Real.sin, Real.cos, Real.exp, Real.pi⟩ 0.1 0.1 0 0 <
      dist ⟨Real.sqrt, Real.sin, Real.cos, Real.exp, Real.pi⟩ 0.1 0.1 5 5 := by
    simp only [dist]
    apply Real.sqrt_lt_sqrt <;> norm_num
  obtain ⟨r, hr, hnear, _⟩ := dataAssociationBy_first_minimum
    (dist ⟨Real.sqrt, Real.sin, Real.cos, Real.exp, Real.pi⟩)
    [⟨1, 5, 5⟩, ⟨2, 0, 0⟩] [⟨0, 0.1, 0.1⟩] 0 ⟨0, 0.1, 0.1⟩ rfl
  obtain ⟨k, p, hk, hid, hmin, _⟩ := hnear ⟨⟨2, 0, 0⟩, by simp, h1⟩
  refine ⟨r, hr, ?_⟩
  rw [hid]
  match k, hk with
  | 0, hk =>
    simp only [List.getElem?_cons_zero, Option.some.injEq] at hk
    subst hk
    exact absurd (hmin ⟨2, 0, 0⟩ (by simp)) (not_le.2 h2)
  | 1, hk =>
    simp only [List.getElem?_cons_succ, List.getElem?_cons_zero, Option.some.injEq] at hk
    subst hk
    rfl
  | k + 2, hk => simp at hk

/-- The example of the specification evaluated: with predicted
`[(id=1, 5, 5), (id=2, 0, 0)]` the observation at `(0.1, 0.1)` gets id 2. -/
theorem dataAssociation_example :
    dataAssociation ⟨Real.sqrt, Real.sin, Real.cos, Real.exp, Real.pi⟩
      [⟨1, 5, 5⟩, ⟨2, 0, 0⟩] [⟨0, 0.1, 0.1⟩] = [⟨2, 0.1, 0.1⟩] := by
  have h1 : Real.sqrt ((5 - 0.1) * (5 - 0.1) + (5 - 0.1) * (5 - 0.1)) <
      (2 : ℝ) ^ 1024 - 2 ^ 971 := by
    rw [Real.sqrt_lt' (by norm_num)]
    norm_num
  have h2 : Real.sqrt ((0 - 0.1) * (0 - 0.1) + (0 - 0.1) * (0 - 0.1)) <
      Real.sqrt ((5 - 0.1) * (5 - 0.1) + (5 - 0.1) * (5 - 0.1)) := by
    apply Real.sqrt_lt_sqrt <;> norm_num
  simp only [dataAssociation, nearestLoop, dist, DBL_MAX, List.map, if_pos h1, if_pos h2]

/-- Counterexample to C1 as stated: `predicted` is not empty, but its only
element, at `(2^1023, 0)`, lies at distance `2^1024` from the observation at
`(-2^1023, 0)`.  That is not below the initial `min_dist` (in `double` the
distance overflows to infinity, which is not below it either), so the
observation gets the id `-1`, not the id `1` of that element. -/
theorem dataAssociation_far_counterexample :
    dataAssociation ⟨Real.sqrt, Real.sin, Real.cos, Real.exp, Real.pi⟩
      [⟨1, 2 ^ 1023, 0⟩] [⟨0, -2 ^ 1023, 0⟩] = [⟨-1, -2 ^ 1023, 0⟩] := by
  have h : ¬ Real.sqrt ((2 ^ 1023 - -2 ^ 1023) * (2 ^ 1023 - -2 ^ 1023) +
      (0 - 0) * (0 - 0)) < (2 : ℝ) ^ 1024 - 2 ^ 971 := by
    rw [not_lt]
    apply Real.le_sqrt_of_sq_le
    norm_num
  simp only [dataAssociation, nearestLoop, dist, DBL_MAX, List.map, if_neg h]

/-- C10: with an empty `predicted` list `dataAssociation` returns, for every
observation list, the observations with every id set to the sentinel `-1`,
whatever id they carried, positions unchanged.  The call cannot fail: the
embedding of `dataAssociation` is a total function, no read of it leaves a
vector. -/
theorem dataAssociation_empty_predicted (m : Libm α)
    (observations : List (LandmarkObs α)) :
    dataAssociation m [] observations =
      observations.map fun obs => ⟨-1, obs.x, obs.y⟩ := by
  simp [dataAssociation, nearestLoop]

/-! ## Claims on `prediction` -/

/-- C3: when `|yaw_rate| >= 0.00001` and all noise draws are 0, `prediction`
completes and replaces every particle `(x, y, theta)` of index below
`num_particles` by the particle with
`x + (v/w) * (sin (theta + w * delta_t) - sin theta)`,
`y + (v/w) * (cos theta - cos (theta + w * delta_t))` and
`theta + w * delta_t`, all other fields unchanged. -/
theorem prediction_curved (m : Libm α) (delta_t : α) (std_pos : α × α × α)
    (velocity yaw_rate : α) (pf : ParticleFilter α)
    (hw : 0.00001 ≤ |yaw_rate|)
    (hlen : pf.num_particles ≤ pf.particles.length) :
    ∃ pf1, prediction m delta_t std_pos velocity yaw_rate (fun _ => (0, 0, 0)) pf
        = some pf1 ∧
      pf1.particles.length = pf.particles.length ∧
      ∀ (i : Nat) (p : Particle α), i < pf.num_particles →
        pf.particles[i]? = some p →
        pf1.particles[i]? = some
          { p with
            x := p.x + velocity / yaw_rate *
              (m.sin (p.theta + yaw_rate * delta_t) - m.sin p.theta)
            y := p.y + velocity / yaw_rate *
              (m.cos p.theta - m.cos (p.theta + yaw_rate * delta_t))
            theta := p.theta + yaw_rate * delta_t } := by
  obtain ⟨qs, hqs⟩ := forParticles_total
    (fun i p => some (predictParticle m delta_t velocity yaw_rate ((fun _ => (0, 0, 0)) i) p))
    pf.num_particles 0 pf.particles (by omega) (fun j p _ _ _ => ⟨_, rfl⟩)
  obtain ⟨hl, _, hrest⟩ := forParticles_some _ _ _ _ _ hqs
  refine ⟨{ pf with particles := qs }, by simp only [prediction, hqs], hl, ?_⟩
  intro i p hi hp
  obtain ⟨q, hq, hget⟩ := (hrest i p hp).1 ⟨Nat.zero_le _, by omega⟩
  simp only [hget, Option.some.injEq]
  simp only [Option.some.injEq] at hq
  rw [← hq]
  simp [predictParticle, not_lt.2 hw]

/-- C4: when `|yaw_rate| < 0.00001` and all noise draws are 0, `prediction`
completes and replaces every particle `(x, y, theta)` of index below
`num_particles` by the particle with `x + v * delta_t * cos theta` and
`y + v * delta_t * sin theta`; `theta` and all other fields are unchanged,
and `yaw_rate` does not occur in the result. -/
theorem prediction_straight (m : Libm α) (delta_t : α) (std_pos : α × α × α)
    (velocity yaw_rate : α) (pf : ParticleFilter α)
    (hw : |yaw_rate| < 0.00001)
    (hlen : pf.num_particles ≤ pf.particles.length) :
    ∃ pf1, prediction m delta_t std_pos velocity yaw_rate (fun _ => (0, 0, 0)) pf
        = some pf1 ∧
      pf1.particles.length = pf.particles.length ∧
      ∀ (i : Nat) (p : Particle α), i < pf.num_particles →
        pf.particles[i]? = some p →
        pf1.particles[i]? = some
          { p with
            x := p.x + velocity * delta_t * m.cos p.theta
            y := p.y + velocity * delta_t * m.sin p.theta } := by
  obtain ⟨qs, hqs⟩ := forParticles_total
    (fun i p => some (predictParticle m delta_t velocity yaw_rate ((fun _ => (0, 0, 0)) i) p))
    pf.num_particles 0 pf.particles (by omega) (fun j p _ _ _ => ⟨_, rfl⟩)
  obtain ⟨hl, _, hrest⟩ := forParticles_some _ _ _ _ _ hqs
  refine ⟨{ pf with particles := qs }, by simp only [prediction, hqs], hl, ?_⟩
  intro i p hi hp
  obtain ⟨q, hq, hget⟩ := (hrest i p hp).1 ⟨Nat.zero_le _, by omega⟩
  simp only [hget, Option.some.injEq]
  simp only [Option.some.injEq] at hq
  rw [← hq]
  simp [predictParticle, hw]

/-- Witness for C3: `v = 1`, `w = pi/4`, `delta_t = 1`, one particle at
`(0, 0)` with `theta = 0`, over the reals: the particle moves to
`((4/pi) * (sqrt 2 / 2), (4/pi) * (1 - sqrt 2 / 2))` with heading `pi/4`. -/
theorem prediction_curved_witness :
    ∃ pf1, prediction ⟨Real.sqrt, Real.sin, Real.cos, Real.exp, Real.pi⟩ 1 (0, 0, 0)
        1 (Real.pi / 4) (fun _ => (0, 0, 0))
        ⟨1, true, [], [⟨0, 0, 0, 0, 1, [], [], []⟩]⟩ = some pf1 ∧
      pf1.particles[0]? = some
        ⟨0, 4 / Real.pi * (Real.sqrt 2 / 2), 4 / Real.pi * (1 - Real.sqrt 2 / 2),
          Real.pi / 4, 1, [], [], []⟩ := by
  have hw : (0.00001 : ℝ) ≤ |Real.pi / 4| := by
    rw [abs_of_pos (by positivity)]
    have := Real.pi_gt_three
    norm_num
    linarith
  obtain ⟨pf1, h1, _, h3⟩ :=
    prediction_curved ⟨Real.sqrt, Real.sin, Real.cos, Real.exp, Real.pi⟩ 1 (0, 0, 0)
      1 (Real.pi / 4) ⟨1, true, [], [⟨0, 0, 0, 0, 1, [], [], []⟩]⟩ hw (by simp)
  refine ⟨pf1, h1, ?_⟩
  rw [h3 0 ⟨0, 0, 0, 0, 1, [], [], []⟩ (by simp) rfl]
  simp [Real.sin_pi_div_four, Real.cos_pi_div_four]

/-- Witness for C4: `w = 0`, `v = 2`, `delta_t = 1`, one particle at `(0, 0)`
with `theta = 0`, over the reals: the particle moves to `(2, 0)` and keeps its
heading. -/
theorem prediction_straight_witness :
    ∃ pf1, prediction ⟨Real.sqrt, Real.sin, Real.cos, Real.exp, Real.pi⟩ 1 (0, 0, 0)
        2 0 (fun _ => (0, 0, 0))
        ⟨1, true, [], [⟨0, 0, 0, 0, 1, [], [], []⟩]⟩ = some pf1 ∧
      pf1.particles[0]? = some ⟨0, 2, 0, 0, 1, [], [], []⟩ := by
  obtain ⟨pf1, h1, _, h3⟩ :=
    prediction_straight ⟨Real.sqrt, Real.sin, Real.cos, Real.exp, Real.pi⟩ 1 (0, 0, 0)
      2 0 ⟨1, true, [], [⟨0, 0, 0, 0, 1, [], [], []⟩]⟩ (by norm_num) (by simp)
  refine ⟨pf1, h1, ?_⟩
  rw [h3 0 ⟨0, 0, 0, 0, 1, [], [], []⟩ (by simp) rfl]
  simp

/-! ## Claims on `resample` -/

/-- C5 (as amended): for every particle set of length `num_particles` whose
weights are all `>= 0`, every starting index in `0..num_particles-1` and every
sequence of threshold draws in `[0, max_weight)` whose first draw is not 0,
`resample` completes and every particle of the set it produces is a copy of a
source particle with weight `> 0`. -/
theorem resample_zero_weight_vanish (start : Nat) (draws : Nat → α)
    (pf : ParticleFilter α) (mw : α)
    (hlen : pf.particles.length = pf.num_particles)
    (hnn : ∀ p ∈ pf.particles, 0 ≤ p.weight)
    (hstart : start < pf.num_particles)
    (hmax : max_element (pf.particles.map fun p => p.weight) = some mw)
    (hdraws : ∀ i, 0 ≤ draws i ∧ draws i < mw)
    (hfirst : 0 < draws 0) :
    (∃ pf1, resample (4 * pf.num_particles + 1) start draws pf = some pf1) ∧
    ∀ (fuel : Nat) (pf1 : ParticleFilter α),
      resample fuel start draws pf = some pf1 →
      ∀ q ∈ pf1.particles, q ∈ pf.particles ∧ 0 < q.weight :=
  ⟨resample_total start draws pf mw hlen hnn hstart hmax
      fun i => ⟨(hdraws i).1, le_of_lt (hdraws i).2⟩,
    fun fuel pf1 h =>
      resample_positive fuel start draws pf pf1 hlen (fun i => (hdraws i).1) hfirst h⟩

/-- Witness for C5: three particles with the weights `[0, 0, 1]`, starting
index 0 and every draw `1/2`: every resampled particle is the particle of
index 2. -/
theorem resample_zero_weight_vanish_witness :
    (∃ pf1, resample 13 0 (fun _ => (1 / 2 : ℚ)) threeParticles = some pf1) ∧
    ∀ (fuel : Nat) (pf1 : ParticleFilter ℚ),
      resample fuel 0 (fun _ => (1 / 2 : ℚ)) threeParticles = some pf1 →
      ∀ q ∈ pf1.particles, q = ⟨2, 12, 22, 0, 1, [], [], []⟩ := by
  have h := resample_zero_weight_vanish 0 (fun _ => (1 / 2 : ℚ)) threeParticles 1
    rfl (by simp [threeParticles]) (by decide) (by simp [threeParticles, max_element])
    (fun _ => by norm_num) (by norm_num)
  refine ⟨h.1, fun fuel pf1 hr q hq => ?_⟩
  obtain ⟨hmem, hpos⟩ := h.2 fuel pf1 hr q hq
  simp only [threeParticles, List.mem_cons, List.mem_singleton, List.not_mem_nil,
    or_false] at hmem
  rcases hmem with rfl | rfl | rfl
  · simp at hpos
  · simp at hpos
  · rfl

/-- Counterexample to C5 as stated: with the weights `[0, 0, 1]`, starting
index 0 and the draws `0, 1/2, 1/2` (all in `[0, max_weight)`), the first
resampled particle is the particle of index 0, whose weight is 0. -/
theorem resample_zero_draw_counterexample :
    resample 13 0 (fun i => if i = 0 then (0 : ℚ) else 1 / 2) threeParticles =
      some ⟨3, true, [],
        [⟨0, 10, 20, 0, 0, [], [], []⟩, ⟨2, 12, 22, 0, 1, [], [], []⟩,
         ⟨2, 12, 22, 0, 1, [], [], []⟩]⟩ := by
  norm_num [resample, weightsLoop, max_element, resampleLoop, wheel, threeParticles]

/-- C7: for every particle set of length `num_particles` with non-negative
weights, every starting index in `0..num_particles-1` and every sequence of
threshold draws between 0 and the largest weight, `resample` completes, and
after it the particle sequence has exactly `num_particles` elements, each
equal in every field (id included) to some particle of the set before. -/
theorem resample_copies (start : Nat) (draws : Nat → α)
    (pf : ParticleFilter α) (mw : α)
    (hlen : pf.particles.length = pf.num_particles)
    (hnn : ∀ p ∈ pf.particles, 0 ≤ p.weight)
    (hstart : start < pf.num_particles)
    (hmax : max_element (pf.particles.map fun p => p.weight) = some mw)
    (hdraws : ∀ i, 0 ≤ draws i ∧ draws i ≤ mw) :
    (∃ pf1, resample (4 * pf.num_particles + 1) start draws pf = some pf1) ∧
    ∀ (fuel : Nat) (pf1 : ParticleFilter α),
      resample fuel start draws pf = some pf1 →
      pf1.particles.length = pf.num_particles ∧
      ∀ q ∈ pf1.particles, ∃ p ∈ pf.particles,
        q.id = p.id ∧ q.x = p.x ∧ q.y = p.y ∧ q.theta = p.theta ∧
        q.weight = p.weight ∧ q.associations = p.associations ∧
        q.sense_x = p.sense_x ∧ q.sense_y = p.sense_y := by
  refine ⟨resample_total start draws pf mw hlen hnn hstart hmax hdraws, ?_⟩
  intro fuel pf1 h
  obtain ⟨_, h2, h3⟩ := resample_some fuel start draws pf pf1 h
  exact ⟨h2, fun q hq => ⟨q, h3 q hq, rfl, rfl, rfl, rfl, rfl, rfl, rfl, rfl⟩⟩

/-- Witness for C7: three particles with the weights `[0, 0, 1]`, starting
index 1 and every draw `1/4`: the new set has three elements, all copies of
old particles; the ids of the new set are `[2, 2, 2]`, not `[0, 1, 2]`. -/
theorem resample_copies_witness :
    (∃ pf1, resample 13 1 (fun _ => (1 / 4 : ℚ)) threeParticles = some pf1 ∧
      pf1.particles.map (fun p => p.id) = [2, 2, 2]) ∧
    ∀ (fuel : Nat) (pf1 : ParticleFilter ℚ),
      resample fuel 1 (fun _ => (1 / 4 : ℚ)) threeParticles = some pf1 →
      pf1.particles.length = 3 ∧
      ∀ q ∈ pf1.particles, ∃ p ∈ threeParticles.particles,
        q.id = p.id ∧ q.x = p.x ∧ q.y = p.y ∧ q.theta = p.theta ∧
        q.weight = p.weight ∧ q.associations = p.associations ∧
        q.sense_x = p.sense_x ∧ q.sense_y = p.sense_y := by
  have h := resample_copies 1 (fun _ => (1 / 4 : ℚ)) threeParticles 1
    rfl (by simp [threeParticles]) (by decide) (by simp [threeParticles, max_element])
    (fun _ => by norm_num)
  refine ⟨⟨⟨3, true, [], [⟨2, 12, 22, 0, 1, [], [], []⟩, ⟨2, 12, 22, 0, 1, [], [], []⟩,
    ⟨2, 12, 22, 0, 1, [], [], []⟩]⟩, ?_, by simp⟩, h.2⟩
  norm_num [resample, weightsLoop, max_element, resampleLoop, wheel, threeParticles]

/-! ## Claims on the particle count -/

/-- C6 (as amended): starting from a freshly constructed filter (empty
particle sequence), the call of `init` completes, and in every state reached
by `init` followed by any sequence of calls of `prediction`, `updateWeights`
and `resample` (no further call of `init`) the length of the particle
sequence equals `num_particles`, which is 100. -/
theorem count_invariant (m : Libm α) (x y theta : α) (std : α × α × α)
    (draws : Nat → α × α × α) (fresh : ParticleFilter α)
    (hfresh : fresh.particles = []) :
    (∃ s, run m [Op.init x y theta std draws] fresh = some s) ∧
    ∀ (ops : List (Op α)) (t : ParticleFilter α),
      (∀ op ∈ ops, op.isInit = false) →
      run m (Op.init x y theta std draws :: ops) fresh = some t →
      t.particles.length = t.num_particles ∧ t.num_particles = 100 := by
  obtain ⟨s, hs, hn, _, hl⟩ := init_total x y theta std draws fresh
  rw [hfresh] at hl
  refine ⟨⟨s, by simp only [run, step, hs]⟩, ?_⟩
  intro ops t hops h
  simp only [run, step, hs] at h
  obtain ⟨h1, h2⟩ := run_no_init_invariant m ops s t hops
    (by simp only [List.length_nil] at hl; omega) h
  exact ⟨h1, by omega⟩

/-- Witness for C6: a fresh filter over the rationals (`num_particles = 0`, no
particles) and the call `init(0, 0, 0, (1, 1, 1))` with the draws `(i, i, i)`:
the call completes, and every state reached afterwards without a further
`init` holds 100 particles. -/
theorem count_invariant_witness :
    (∃ s, run ⟨id, id, id, id, 3⟩
      [Op.init (0 : ℚ) 0 0 (1, 1, 1) fun i => ((i : ℚ), (i : ℚ), (i : ℚ))]
      ⟨0, false, [], []⟩ = some s) ∧
    ∀ (ops : List (Op ℚ)) (t : ParticleFilter ℚ),
      (∀ op ∈ ops, op.isInit = false) →
      run ⟨id, id, id, id, 3⟩
        (Op.init (0 : ℚ) 0 0 (1, 1, 1) (fun i => ((i : ℚ), (i : ℚ), (i : ℚ))) :: ops)
        ⟨0, false, [], []⟩ = some t →
      t.particles.length = t.num_particles ∧ t.num_particles = 100 :=
  count_invariant ⟨id, id, id, id, 3⟩ (0 : ℚ) 0 0 (1, 1, 1)
    (fun i => ((i : ℚ), (i : ℚ), (i : ℚ))) ⟨0, false, [], []⟩ rfl

/-- Counterexample to C6 as stated: a sequence of public operations that
begins with `init` may call `init` again; after `init; init` on a fresh
filter the particle sequence holds 200 particles while `num_particles` is
100. -/
theorem count_init_twice_counterexample :
    ∃ t, run ⟨id, id, id, id, 3⟩
        [Op.init (0 : ℚ) 0 0 (1, 1, 1) (fun i => ((i : ℚ), (i : ℚ), (i : ℚ))),
         Op.init (0 : ℚ) 0 0 (1, 1, 1) (fun i => ((i : ℚ), (i : ℚ), (i : ℚ)))]
        ⟨0, false, [], []⟩ = some t ∧
      t.particles.length = 200 ∧ t.num_particles = 100 := by
  obtain ⟨s, hs, _, _, hl⟩ := init_total (0 : ℚ) 0 0 (1, 1, 1)
    (fun i => ((i : ℚ), (i : ℚ), (i : ℚ))) ⟨0, false, [], []⟩
  obtain ⟨t, ht, hn, _, hl2⟩ := init_total (0 : ℚ) 0 0 (1, 1, 1)
    (fun i => ((i : ℚ), (i : ℚ), (i : ℚ))) s
  refine ⟨t, by simp only [run, step, hs, ht], ?_, hn⟩
  simp only [List.length_nil] at hl
  omega

/-! ## Claims on `updateWeights` -/

/-- C2, the code at the failing input: the filter right after `init` with
every draw `(0, 0, 0)` (100 particles at the origin with heading 0), the
landmarks `(id=1, 1, 0)` and `(id=2, -1, 0)`, both in range, the observations
`(1, 0)` and `(-1, 0)`, deviations `(1, 1)`.  The first observation is matched
to landmark 1 and the second to landmark 2, both at distance 0, so the claim
gives every particle the weight `density(0) * density(0) = (1/(2 pi))^2`.
Particles 0 and 1 get it.  For every index `i` from 2 to 99 the condition
`i < predictions.size()` is `i < 2`, the lookup never runs, and both
observations are scored at what the never-assigned `pred_x`, `pred_y` hold,
`u i`, the same pair for both since nothing writes them in between.  No pair
is at both landmarks, so the weight is below the claimed one whatever the
locals hold; when they keep the value last assigned, the `(-1, 0)` of particle
1, it is `(1/(2 pi))^2 * exp (-2)`. -/
theorem updateWeights_index_guard_failing (u : Nat → ℝ × ℝ) :
    ∃ s0 pf1,
      init (0 : ℝ) 0 0 (1, 1, 1) (fun _ => (0, 0, 0)) ⟨0, false, [], []⟩ = some s0 ∧
      updateWeights ⟨Real.sqrt, Real.sin, Real.cos, Real.exp, Real.pi⟩ 50 (1, 1)
        [⟨0, 1, 0⟩, ⟨0, -1, 0⟩] ⟨[⟨1, 1, 0⟩, ⟨2, -1, 0⟩]⟩ (fun i _ => u i) s0
        = some pf1 ∧
      (∀ (i : Nat), i < 2 → pf1.particles[i]? =
        some ⟨(i : Int), 0, 0, 0,
          density ⟨Real.sqrt, Real.sin, Real.cos, Real.exp, Real.pi⟩ (1, 1) 1 0 1 0 *
          density ⟨Real.sqrt, Real.sin, Real.cos, Real.exp, Real.pi⟩ (1, 1) (-1) 0 (-1) 0,
          [], [], []⟩) ∧
      (∀ (i : Nat), 2 ≤ i → i < 100 →
        pf1.particles[i]? =
          some ⟨(i : Int), 0, 0, 0,
            density ⟨Real.sqrt, Real.sin, Real.cos, Real.exp, Real.pi⟩ (1, 1) 1 0
              (u i).1 (u i).2 *
            density ⟨Real.sqrt, Real.sin, Real.cos, Real.exp, Real.pi⟩ (1, 1) (-1) 0
              (u i).1 (u i).2, [], [], []⟩ ∧
        density ⟨Real.sqrt, Real.sin, Real.cos, Real.exp, Real.pi⟩ (1, 1) 1 0
            (u i).1 (u i).2 *
          density ⟨Real.sqrt, Real.sin, Real.cos, Real.exp, Real.pi⟩ (1, 1) (-1) 0
            (u i).1 (u i).2 <
        density ⟨Real.sqrt, Real.sin, Real.cos, Real.exp, Real.pi⟩ (1, 1) 1 0 1 0 *
          density ⟨Real.sqrt, Real.sin, Real.cos, Real.exp, Real.pi⟩ (1, 1) (-1) 0 (-1) 0) ∧
      density ⟨Real.sqrt, Real.sin, Real.cos, Real.exp, Real.pi⟩ (1, 1) 1 0 (-1) 0 *
          density ⟨Real.sqrt, Real.sin, Real.cos, Real.exp, Real.pi⟩ (1, 1) (-1) 0 (-1) 0 =
        (1 / (2 * Real.pi)) ^ 2 * Real.exp (-2) := by
  have hd11 : dist ⟨Real.sqrt, Real.sin, Real.cos, Real.exp, Real.pi⟩ 1 0 1 0 = 0 := by
    simp [dist]
  have hd12 : dist ⟨Real.sqrt, Real.sin, Real.cos, Real.exp, Real.pi⟩ 1 0 (-1) 0 = 2 := by
    simp only [dist]
    rw [show ((-1 : ℝ) - 1) * (-1 - 1) + (0 - 0) * (0 - 0) = 2 ^ 2 by norm_num]
    exact Real.sqrt_sq (by norm_num)
  have hd21 : dist ⟨Real.sqrt, Real.sin, Real.cos, Real.exp, Real.pi⟩ (-1) 0 1 0 = 2 := by
    simp only [dist]
    rw [show ((1 : ℝ) - -1) * (1 - -1) + (0 - 0) * (0 - 0) = 2 ^ 2 by norm_num]
    exact Real.sqrt_sq (by norm_num)
  have hd22 : dist ⟨Real.sqrt, Real.sin, Real.cos, Real.exp, Real.pi⟩ (-1) 0 (-1) 0 = 0 := by
    simp [dist]
  have hmax : (0 : ℝ) < DBL_MAX ∧ (2 : ℝ) < DBL_MAX := by
    constructor <;> · unfold DBL_MAX; norm_num
  have hda : dataAssociation ⟨Real.sqrt, Real.sin, Real.cos, Real.exp, Real.pi⟩
      [⟨1, 1, 0⟩, ⟨2, -1, 0⟩] [⟨0, 1, 0⟩, ⟨0, -1, 0⟩] = [⟨1, 1, 0⟩, ⟨2, -1, 0⟩] := by
    simp only [dataAssociation, nearestLoop, List.map, hd11, hd12, hd21, hd22,
      if_pos hmax.1, if_pos hmax.2, lt_irrefl, if_false,
      if_neg (show ¬ (2 : ℝ) < 0 by norm_num), if_pos (show (0 : ℝ) < 2 by norm_num)]
  have hpred : predictions (50 : ℝ) 0 0 [⟨1, 1, 0⟩, ⟨2, -1, 0⟩] =
      [⟨1, 1, 0⟩, ⟨2, -1, 0⟩] := by
    norm_num [predictions]
  have hmo : map_observations ⟨Real.sqrt, Real.sin, Real.cos, Real.exp, Real.pi⟩ 0 0 0
      [⟨0, 1, 0⟩, ⟨0, -1, 0⟩] = [⟨0, 1, 0⟩, ⟨0, -1, 0⟩] := by
    simp [map_observations]
  have hw0 : ∀ (i : Nat), i < 2 →
      particleWeight ⟨Real.sqrt, Real.sin, Real.cos, Real.exp, Real.pi⟩ 50 (1, 1)
        [⟨0, 1, 0⟩, ⟨0, -1, 0⟩] ⟨[⟨1, 1, 0⟩, ⟨2, -1, 0⟩]⟩ (fun i _ => u i) i
        ⟨(i : Int), 0, 0, 0, 1, [], [], []⟩
      = some (density ⟨Real.sqrt, Real.sin, Real.cos, Real.exp, Real.pi⟩ (1, 1) 1 0 1 0 *
          density ⟨Real.sqrt, Real.sin, Real.cos, Real.exp, Real.pi⟩ (1, 1) (-1) 0 (-1) 0) := by
    intro i hi
    simp only [particleWeight, hpred, hmo]
    simp only [hda]
    simp only [weightLoop, lookupPrediction, List.length_cons, List.length_nil,
      Nat.zero_add, Nat.reduceAdd, if_pos hi, scanPredictions, if_true, one_mul,
      if_neg (show ¬ (1 : Int) = 2 by decide)]
  have hw1 : ∀ (i : Nat), 2 ≤ i →
      particleWeight ⟨Real.sqrt, Real.sin, Real.cos, Real.exp, Real.pi⟩ 50 (1, 1)
        [⟨0, 1, 0⟩, ⟨0, -1, 0⟩] ⟨[⟨1, 1, 0⟩, ⟨2, -1, 0⟩]⟩ (fun i _ => u i) i
        ⟨(i : Int), 0, 0, 0, 1, [], [], []⟩
      = some (density ⟨Real.sqrt, Real.sin, Real.cos, Real.exp, Real.pi⟩ (1, 1) 1 0
            (u i).1 (u i).2 *
          density ⟨Real.sqrt, Real.sin, Real.cos, Real.exp, Real.pi⟩ (1, 1) (-1) 0
            (u i).1 (u i).2) := by
    intro i hi
    have hi2 : ¬ i < 2 := by omega
    simp only [particleWeight, hpred, hmo]
    simp only [hda]
    simp only [weightLoop, lookupPrediction, List.length_cons, List.length_nil,
      Nat.zero_add, Nat.reduceAdd, if_neg hi2, one_mul]
  have hlt : ∀ (a b : ℝ),
      density ⟨Real.sqrt, Real.sin, Real.cos, Real.exp, Real.pi⟩ (1, 1) 1 0 a b *
        density ⟨Real.sqrt, Real.sin, Real.cos, Real.exp, Real.pi⟩ (1, 1) (-1) 0 a b <
      density ⟨Real.sqrt, Real.sin, Real.cos, Real.exp, Real.pi⟩ (1, 1) 1 0 1 0 *
        density ⟨Real.sqrt, Real.sin, Real.cos, Real.exp, Real.pi⟩ (1, 1) (-1) 0 (-1) 0 := by
    intro a b
    simp only [density]
    have hc : (0 : ℝ) < 1 / (2 * Real.pi * 1 * 1) := by positivity
    have he : Real.exp (-((a - 1) ^ 2 / (2 * 1 ^ 2) + (b - 0) ^ 2 / (2 * 1 ^ 2))) *
        Real.exp (-((a - -1) ^ 2 / (2 * 1 ^ 2) + (b - 0) ^ 2 / (2 * 1 ^ 2))) < 1 := by
      rw [← Real.exp_add, Real.exp_lt_one_iff]
      have : (a - 1) ^ 2 / (2 * 1 ^ 2) + (b - 0) ^ 2 / (2 * 1 ^ 2) +
          ((a - -1) ^ 2 / (2 * 1 ^ 2) + (b - 0) ^ 2 / (2 * 1 ^ 2)) = a ^ 2 + b ^ 2 + 1 := by
        ring
      nlinarith [sq_nonneg a, sq_nonneg b]
    have h0 : Real.exp (-(((1 : ℝ) - 1) ^ 2 / (2 * 1 ^ 2) + ((0 : ℝ) - 0) ^ 2 / (2 * 1 ^ 2))) = 1 := by
      norm_num
    have h00 : Real.exp (-(((-1 : ℝ) - -1) ^ 2 / (2 * 1 ^ 2) + ((0 : ℝ) - 0) ^ 2 / (2 * 1 ^ 2))) = 1 := by
      norm_num
    rw [h0, h00]
    have hcc : (0 : ℝ) < 1 / (2 * Real.pi * 1 * 1) * (1 / (2 * Real.pi * 1 * 1)) :=
      mul_pos hc hc
    calc 1 / (2 * Real.pi * 1 * 1) *
            Real.exp (-((a - 1) ^ 2 / (2 * 1 ^ 2) + (b - 0) ^ 2 / (2 * 1 ^ 2))) *
          (1 / (2 * Real.pi * 1 * 1) *
            Real.exp (-((a - -1) ^ 2 / (2 * 1 ^ 2) + (b - 0) ^ 2 / (2 * 1 ^ 2))))
        = 1 / (2 * Real.pi * 1 * 1) * (1 / (2 * Real.pi * 1 * 1)) *
          (Real.exp (-((a - 1) ^ 2 / (2 * 1 ^ 2) + (b - 0) ^ 2 / (2 * 1 ^ 2))) *
            Real.exp (-((a - -1) ^ 2 / (2 * 1 ^ 2) + (b - 0) ^ 2 / (2 * 1 ^ 2)))) := by ring
      _ < 1 / (2 * Real.pi * 1 * 1) * (1 / (2 * Real.pi * 1 * 1)) * 1 :=
          mul_lt_mul_of_pos_left he hcc
      _ = 1 / (2 * Real.pi * 1 * 1) * 1 * (1 / (2 * Real.pi * 1 * 1) * 1) := by ring
  obtain ⟨s0, hs0, hn, _, hl, hget⟩ := init_fresh (0 : ℝ) 0 0 (1, 1, 1)
    (fun _ => (0, 0, 0)) ⟨0, false, [], []⟩ rfl
  obtain ⟨pf1, hpf1⟩ := updateWeights_total
    ⟨Real.sqrt, Real.sin, Real.cos, Real.exp, Real.pi⟩ 50 (1, 1)
    [⟨0, 1, 0⟩, ⟨0, -1, 0⟩] ⟨[⟨1, 1, 0⟩, ⟨2, -1, 0⟩]⟩ (fun i _ => u i) s0 (by omega)
    (fun i p hi hp => by
      rw [hget i (by omega)] at hp
      rw [← Option.some.inj hp]
      by_cases h2 : i < 2
      · exact ⟨_, hw0 i h2⟩
      · exact ⟨_, hw1 i (by omega)⟩)
  have hsome := updateWeights_some _ _ _ _ _ _ _ _ hpf1
  refine ⟨s0, pf1, hs0, hpf1, ?_, ?_, ?_⟩
  · intro i hi
    obtain ⟨w, hw, hq⟩ := (hsome i _ (hget i (by omega))).1 (by omega)
    have hw2 := hw0 i hi
    rw [hw] at hw2
    rw [hq, ← Option.some.inj hw2]
  · intro i hi1 hi2
    obtain ⟨w, hw, hq⟩ := (hsome i _ (hget i hi2)).1 (by omega)
    have hw2 := hw1 i hi1
    rw [hw] at hw2
    refine ⟨by rw [hq, ← Option.some.inj hw2], hlt _ _⟩
  · simp only [density]
    have h1 : Real.exp (-(((-1 : ℝ) - 1) ^ 2 / (2 * 1 ^ 2) + ((0 : ℝ) - 0) ^ 2 / (2 * 1 ^ 2)))
        = Real.exp (-2) := by
      norm_num
    have h2 : Real.exp (-(((-1 : ℝ) - -1) ^ 2 / (2 * 1 ^ 2) + ((0 : ℝ) - 0) ^ 2 / (2 * 1 ^ 2)))
        = 1 := by
      norm_num
    rw [h1, h2]
    ring

/-- C8, the code at the failing input: the filter right after `init` with
every draw `(0, 0, 0)` (100 particles at the origin), a map without landmarks
(so no particle has a gated landmark), one observation `(0, 0)`, deviations
`(1, 1)`.  The scoring loop still runs once per particle; the lookup does not
run (`i < 0` is false), so the weight is the density at whatever the
uninitialised `pred_x`, `pred_y` hold, and that is below 1 for every value
they can hold: no weight is 1.0. -/
theorem updateWeights_empty_gating_failing (unset : Nat → Nat → ℝ × ℝ) :
    ∃ s0 pf1,
      init (0 : ℝ) 0 0 (1, 1, 1) (fun _ => (0, 0, 0)) ⟨0, false, [], []⟩ = some s0 ∧
      updateWeights ⟨Real.sqrt, Real.sin, Real.cos, Real.exp, Real.pi⟩ 50 (1, 1)
        [⟨0, 0, 0⟩] ⟨[]⟩ unset s0 = some pf1 ∧
      ∀ (i : Nat), i < 100 →
        pf1.particles[i]? = some ⟨(i : Int), 0, 0, 0,
          density ⟨Real.sqrt, Real.sin, Real.cos, Real.exp, Real.pi⟩ (1, 1) 0 0
            (unset i 0).1 (unset i 0).2, [], [], []⟩ ∧
        density ⟨Real.sqrt, Real.sin, Real.cos, Real.exp, Real.pi⟩ (1, 1) 0 0
          (unset i 0).1 (unset i 0).2 < 1 := by
  have hmo : map_observations ⟨Real.sqrt, Real.sin, Real.cos, Real.exp, Real.pi⟩ 0 0 0
      [⟨0, 0, 0⟩] = [⟨0, 0, 0⟩] := by
    simp [map_observations]
  have hda : dataAssociation ⟨Real.sqrt, Real.sin, Real.cos, Real.exp, Real.pi⟩
      [] [⟨0, 0, 0⟩] = [⟨-1, 0, 0⟩] := by
    simp only [dataAssociation, nearestLoop, List.map]
  have hw : ∀ (i : Nat),
      particleWeight ⟨Real.sqrt, Real.sin, Real.cos, Real.exp, Real.pi⟩ 50 (1, 1)
        [⟨0, 0, 0⟩] ⟨[]⟩ unset i ⟨(i : Int), 0, 0, 0, 1, [], [], []⟩
      = some (density ⟨Real.sqrt, Real.sin, Real.cos, Real.exp, Real.pi⟩ (1, 1) 0 0
          (unset i 0).1 (unset i 0).2) := by
    intro i
    simp only [particleWeight, predictions, hmo]
    simp only [hda]
    simp only [weightLoop, lookupPrediction, List.length_nil, Nat.not_lt_zero, if_false,
      one_mul]
  have hlt : ∀ (a b : ℝ),
      density ⟨Real.sqrt, Real.sin, Real.cos, Real.exp, Real.pi⟩ (1, 1) 0 0 a b < 1 := by
    intro a b
    unfold density
    have hpi : (1 : ℝ) < 2 * Real.pi * 1 * 1 := by
      have := Real.pi_gt_three
      linarith
    have ha : 1 / (2 * Real.pi * 1 * 1) < 1 := by
      rw [div_lt_one (by linarith)]
      exact hpi
    have ha0 : 0 < 1 / (2 * Real.pi * 1 * 1) := by positivity
    have hb : Real.exp (-((a - 0) ^ 2 / (2 * 1 ^ 2) + (b - 0) ^ 2 / (2 * 1 ^ 2))) ≤ 1 := by
      rw [Real.exp_le_one_iff]
      have : 0 ≤ (a - 0) ^ 2 / (2 * 1 ^ 2) + (b - 0) ^ 2 / (2 * 1 ^ 2) := by positivity
      linarith
    calc 1 / (2 * Real.pi * 1 * 1) *
          Real.exp (-((a - 0) ^ 2 / (2 * 1 ^ 2) + (b - 0) ^ 2 / (2 * 1 ^ 2)))
        ≤ 1 / (2 * Real.pi * 1 * 1) * 1 := mul_le_mul_of_nonneg_left hb (le_of_lt ha0)
      _ < 1 := by rw [mul_one]; exact ha
  obtain ⟨s0, hs0, hn, _, hl, hget⟩ := init_fresh (0 : ℝ) 0 0 (1, 1, 1)
    (fun _ => (0, 0, 0)) ⟨0, false, [], []⟩ rfl
  obtain ⟨pf1, hpf1⟩ := updateWeights_total
    ⟨Real.sqrt, Real.sin, Real.cos, Real.exp, Real.pi⟩ 50 (1, 1)
    [⟨0, 0, 0⟩] ⟨[]⟩ unset s0 (by omega)
    (fun i p hi hp => by
      rw [hget i (by omega)] at hp
      rw [← Option.some.inj hp]
      exact ⟨_, hw i⟩)
  have hsome := updateWeights_some _ _ _ _ _ _ _ _ hpf1
  refine ⟨s0, pf1, hs0, hpf1, fun i hi => ⟨?_, hlt _ _⟩⟩
  obtain ⟨w, hw1, hq⟩ := (hsome i _ (hget i hi)).1 (by omega)
  have hw2 := hw i
  rw [hw1] at hw2
  rw [hq, ← Option.some.inj hw2]

/-- C9, the code at the failing input: the filter right after `init` with
every draw `(0, 0, 0)` (100 particles at the origin with heading 0), one
landmark `(id=1, 0, 0)`, in range, one observation `(3 * 2^1022, 3 * 2^1022)`,
deviations `(1, 1)`.  The distance from the observation to the landmark is not
below `DBL_MAX` (in `double` it is `+infinity`), so `dataAssociation` leaves
the id `-1`.  For the particle of index 0 the condition
`i < predictions.size()` is `0 < 1` and stays true while `k` grows; no landmark
has the id `-1`, so the loop of line 200 reads `predictions[1]` beyond the end
of the vector: the call does not leave a weight `>= 0`, it has no defined
result (`none`), whatever the never-assigned locals hold. -/
theorem updateWeights_unmatched_scan_failing (unset : Nat → Nat → ℝ × ℝ) :
    ∃ s0,
      init (0 : ℝ) 0 0 (1, 1, 1) (fun _ => (0, 0, 0)) ⟨0, false, [], []⟩ = some s0 ∧
      updateWeights ⟨Real.sqrt, Real.sin, Real.cos, Real.exp, Real.pi⟩ 50 (1, 1)
        [⟨0, 3 * 2 ^ 1022, 3 * 2 ^ 1022⟩] ⟨[⟨1, 0, 0⟩]⟩ unset s0 = none := by
  have hfar : ¬ Real.sqrt ((0 - 3 * 2 ^ 1022) * (0 - 3 * 2 ^ 1022) +
      (0 - 3 * 2 ^ 1022) * (0 - 3 * 2 ^ 1022)) < (2 : ℝ) ^ 1024 - 2 ^ 971 := by
    rw [not_lt]
    apply Real.le_sqrt_of_sq_le
    norm_num
  have hda : dataAssociation ⟨Real.sqrt, Real.sin, Real.cos, Real.exp, Real.pi⟩
      [⟨1, 0, 0⟩] [⟨0, 3 * 2 ^ 1022, 3 * 2 ^ 1022⟩] =
      [⟨-1, 3 * 2 ^ 1022, 3 * 2 ^ 1022⟩] := by
    simp only [dataAssociation, nearestLoop, dist, DBL_MAX, List.map, if_neg hfar]
  have hpred : predictions (50 : ℝ) 0 0 [⟨1, 0, 0⟩] = [⟨1, 0, 0⟩] := by
    norm_num [predictions]
  have hmo : map_observations ⟨Real.sqrt, Real.sin, Real.cos, Real.exp, Real.pi⟩ 0 0 0
      [⟨0, 3 * 2 ^ 1022, 3 * 2 ^ 1022⟩] = [⟨0, 3 * 2 ^ 1022, 3 * 2 ^ 1022⟩] := by
    simp [map_observations]
  have hw0 : particleWeight ⟨Real.sqrt, Real.sin, Real.cos, Real.exp, Real.pi⟩ 50 (1, 1)
      [⟨0, 3 * 2 ^ 1022, 3 * 2 ^ 1022⟩] ⟨[⟨1, 0, 0⟩]⟩ unset 0
      ⟨((0 : Nat) : Int), 0, 0, 0, 1, [], [], []⟩ = none := by
    simp only [particleWeight, hpred, hmo]
    simp only [hda]
    simp only [weightLoop, lookupPrediction, List.length_singleton, Nat.lt_one_iff,
      if_true, scanPredictions, if_neg (show ¬ (1 : Int) = -1 by decide)]
  obtain ⟨s0, hs0, hn, _, hl, hget⟩ := init_fresh (0 : ℝ) 0 0 (1, 1, 1)
    (fun _ => (0, 0, 0)) ⟨0, false, [], []⟩ rfl
  refine ⟨s0, hs0, ?_⟩
  unfold updateWeights
  rw [hn]
  unfold forParticles
  simp only [hget 0 (by omega), hw0]

/-! # Lemmas for the claims on frames, formats and the wheel -/

/-! ## Lemmas on the gating window -/

/-- The gated list is the map filtered by the range test, each kept landmark
turned into a `LandmarkObs` with its id and position. -/
theorem predictions_eq_filter (sensor_range p_x p_y : α) :
    ∀ (l : List (single_landmark_s α)),
      predictions sensor_range p_x p_y l =
        (l.filter fun lm =>
          decide (|p_x - lm.x_f| ≤ sensor_range ∧ |p_y - lm.y_f| ≤ sensor_range)).map
          fun lm => ⟨lm.id_i, lm.x_f, lm.y_f⟩ := by
  intro l
  induction l with
  | nil => rfl
  | cons lm rest ih =>
    unfold predictions
    by_cases h : |p_x - lm.x_f| ≤ sensor_range ∧ |p_y - lm.y_f| ≤ sensor_range
    · rw [if_pos h, List.filter_cons_of_pos (by simpa using h), List.map_cons, ih]
    · rw [if_neg h, List.filter_cons_of_neg (by simpa using h), ih]

/-! ## Lemmas on the text of `getAssociations` -/

/-- A decimal digit character is neither a space nor a minus sign, and its
code minus 48 is the digit. -/
theorem digitChar_spec (d : Nat) (hd : d < 10) :
    Nat.digitChar d ≠ ' ' ∧ Nat.digitChar d ≠ '-' ∧ (Nat.digitChar d).toNat - 48 = d := by
  interval_cases d <;> decide

/-- Every character that `Nat.toDigitsCore 10` adds is a decimal digit. -/
theorem toDigitsCore_mem : ∀ (fuel n : Nat) (ds : List Char) (c : Char),
    c ∈ Nat.toDigitsCore 10 fuel n ds → c ∈ ds ∨ ∃ d, d < 10 ∧ c = Nat.digitChar d := by
  intro fuel
  induction fuel with
  | zero => intro n ds c h; exact Or.inl (by simpa [Nat.toDigitsCore] using h)
  | succ fuel ih =>
    intro n ds c h
    unfold Nat.toDigitsCore at h
    simp only at h
    split at h
    · rcases List.mem_cons.1 h with rfl | h
      · exact Or.inr ⟨n % 10, Nat.mod_lt _ (by norm_num), rfl⟩
      · exact Or.inl h
    · rcases ih _ _ c h with h1 | h1
      · rcases List.mem_cons.1 h1 with rfl | h1
        · exact Or.inr ⟨n % 10, Nat.mod_lt _ (by norm_num), rfl⟩
        · exact Or.inl h1
      · exact Or.inr h1

/-- The digits written by `Nat.toDigitsCore 10` never make the list empty. -/
theorem toDigitsCore_ne_nil : ∀ (fuel n : Nat) (ds : List Char),
    0 < fuel → Nat.toDigitsCore 10 fuel n ds ≠ [] := by
  intro fuel
  induction fuel with
  | zero => intro n ds h; omega
  | succ fuel ih =>
    intro n ds _
    unfold Nat.toDigitsCore
    simp only
    split
    · exact List.cons_ne_nil _ _
    · rcases Nat.eq_zero_or_pos fuel with h0 | h0
      · subst h0
        simp [Nat.toDigitsCore]
      · exact ih _ _ h0

/-- Reading the digits written by `Nat.toDigitsCore 10` in front of `ds`
continues the reading of `ds` from the number written. -/
theorem parse_toDigitsCore : ∀ (fuel n : Nat) (ds : List Char), n < fuel →
    (Nat.toDigitsCore 10 fuel n ds).foldl (fun acc c => acc * 10 + (c.toNat - 48)) 0 =
      ds.foldl (fun acc c => acc * 10 + (c.toNat - 48)) n := by
  intro fuel
  induction fuel with
  | zero => intro n ds h; omega
  | succ fuel ih =>
    intro n ds hn
    unfold Nat.toDigitsCore
    simp only
    have hd := (digitChar_spec (n % 10) (Nat.mod_lt _ (by norm_num))).2.2
    split
    · rename_i h0
      simp only [List.foldl_cons, hd, Nat.zero_mul, Nat.zero_add]
      have : n % 10 = n := by omega
      rw [this]
    · rename_i h0
      rw [ih (n / 10) _ (by omega)]
      simp only [List.foldl_cons, hd]
      have : n / 10 * 10 + n % 10 = n := by omega
      rw [this]

/-- Reading the decimal rendering of a natural number gives the number back. -/
theorem parseNat_toDigits (n : Nat) : parseNat (Nat.toDigits 10 n) = n := by
  unfold parseNat Nat.toDigits
  rw [parse_toDigitsCore (n + 1) n [] (by omega)]
  rfl

/-- The rendering of an `int` is not empty and holds no space. -/
theorem ostreamInt_spec (a : Int) : ostreamInt a ≠ [] ∧ ' ' ∉ ostreamInt a := by
  have hdig : ∀ (n : Nat), ' ' ∉ Nat.toDigits 10 n := by
    intro n h
    rcases toDigitsCore_mem _ _ _ _ h with h1 | ⟨d, hd, h1⟩
    · cases h1
    · exact (digitChar_spec d hd).1 h1.symm
  cases a with
  | ofNat n => exact ⟨toDigitsCore_ne_nil _ _ _ (by omega), hdig n⟩
  | negSucc n =>
    refine ⟨List.cons_ne_nil _ _, fun h => ?_⟩
    rcases List.mem_cons.1 h with h1 | h1
    · exact absurd h1 (by decide)
    · exact hdig _ h1

/-- Reading the rendering of an `int` gives the `int` back. -/
theorem parseInt_ostreamInt (a : Int) : parseInt (ostreamInt a) = a := by
  cases a with
  | ofNat n =>
    have hne : ∀ cs, Nat.toDigits 10 n ≠ '-' :: cs := by
      intro cs h
      have hm : '-' ∈ Nat.toDigits 10 n := by rw [h]; exact List.mem_cons_self _ _
      rcases toDigitsCore_mem _ _ _ _ hm with h1 | ⟨d, hd, h1⟩
      · cases h1
      · exact (digitChar_spec d hd).2.1 h1.symm
    unfold ostreamInt parseInt
    split
    · rename_i cs heq
      exact absurd heq (hne cs)
    · simp only [parseNat_toDigits]
      rfl
  | negSucc n =>
    simp only [ostreamInt, parseInt, parseNat_toDigits]
    rfl

/-- Joining with one space: the first token, a space, the join of the rest. -/
theorem intercalate_space_cons (a b : List Char) (rest : List (List Char)) :
    [' '].intercalate (a :: b :: rest) = a ++ ' ' :: [' '].intercalate (b :: rest) := by
  simp [List.intercalate, List.intersperse]

/-- The stream after `copy` holds the renderings joined by one space, and one
more space at the end. -/
theorem copyToStream_eq {β : Type} (fmt : β → List Char) :
    ∀ (a : β) (rest : List β),
      copyToStream fmt (a :: rest) =
        [' '].intercalate ((a :: rest).map fmt) ++ [' '] := by
  intro a rest
  induction rest generalizing a with
  | nil => simp [copyToStream, List.intercalate, List.intersperse]
  | cons b rest ih =>
    rw [copyToStream, ih b]
    simp only [List.map_cons]
    rw [intercalate_space_cons]
    simp

/-- Dropping the last character with `substr(0, length() - 1)`, for a string
shorter than `2^64` that ends in the character `c`. -/
theorem substr_drop_last (t : List Char) (c : Char)
    (hsize : (t ++ [c]).length < 2 ^ 64) :
    substr (t ++ [c]) 0 (lengthMinusOne (t ++ [c])) = some t := by
  have hl : (t ++ [c]).length = t.length + 1 := by simp
  have hm : lengthMinusOne (t ++ [c]) = t.length := by
    unfold lengthMinusOne
    rw [hl] at hsize ⊢
    have : t.length + 1 + (2 ^ 64 - 1) = t.length + 2 ^ 64 := by omega
    rw [this, Nat.add_mod_right, Nat.mod_eq_of_lt (by omega)]
  unfold substr
  rw [hm, hl]
  simp

/-- A join of non-empty tokens without spaces neither starts nor ends with a
space. -/
theorem intercalate_space_ends : ∀ (a : List Char) (rest : List (List Char)),
    (∀ t ∈ a :: rest, t ≠ [] ∧ ' ' ∉ t) →
    ([' '].intercalate (a :: rest)).head? ≠ some ' ' ∧
    ([' '].intercalate (a :: rest)).getLast? ≠ some ' ' := by
  intro a rest
  induction rest generalizing a with
  | nil =>
    intro h
    obtain ⟨_, hsp⟩ := h a (List.mem_cons_self _ _)
    have he : [' '].intercalate [a] = a := by simp [List.intercalate, List.intersperse]
    rw [he]
    exact ⟨fun hh => hsp (List.mem_of_mem_head? hh),
      fun hl => hsp (List.mem_of_mem_getLast? hl)⟩
  | cons b rest ih =>
    intro h
    obtain ⟨hne, hsp⟩ := h a (List.mem_cons_self _ _)
    obtain ⟨_, hlast⟩ := ih b fun t ht => h t (List.mem_cons_of_mem _ ht)
    rw [intercalate_space_cons]
    refine ⟨fun hh => ?_, fun hl => ?_⟩
    · cases a with
      | nil => exact hne rfl
      | cons c cs =>
        simp only [List.cons_append, List.head?_cons, Option.some.injEq] at hh
        exact hsp (hh ▸ List.mem_cons_self _ _)
    · have hne2 : [' '].intercalate (b :: rest) ≠ [] := by
        intro hnil
        obtain ⟨hb, _⟩ := h b (List.mem_cons_of_mem _ (List.mem_cons_self _ _))
        cases rest with
        | nil =>
          have he : [' '].intercalate [b] = b := by
            simp [List.intercalate, List.intersperse]
          exact hb (he ▸ hnil)
        | cons c rest =>
          rw [intercalate_space_cons] at hnil
          cases b with
          | nil => exact hb rfl
          | cons d ds => cases hnil
      have hcons : a ++ ' ' :: [' '].intercalate (b :: rest) =
          (a ++ [' ']) ++ [' '].intercalate (b :: rest) := by simp
      rw [hcons, List.getLast?_append_of_ne_nil _ hne2] at hl
      exact hlast hl

/-! ## Lemmas on the states of the wheel -/

/-- The states of a completed walk: the last one is the result of `wheel`,
every index visited lies inside `weights`, every `beta` after the first is
positive, and the condition was evaluated at most `fuel` times. -/
theorem wheelTrace_spec (weights : List α) (n : Nat) :
    ∀ (fuel : Nat) (beta : α) (index : Nat) (r : α × Nat),
      wheel weights n fuel beta index = some r →
      (∃ pre, wheelTrace weights n fuel beta index = pre ++ [r]) ∧
      (∀ s ∈ wheelTrace weights n fuel beta index,
        s.2 < weights.length ∧ (s = (beta, index) ∨ 0 < s.1)) ∧
      (wheelTrace weights n fuel beta index).length ≤ fuel := by
  intro fuel
  induction fuel with
  | zero => intro beta index r h; simp [wheel] at h
  | succ fuel ih =>
    intro beta index r h
    unfold wheel at h
    unfold wheelTrace
    cases hi : weights[index]? with
    | none => simp [hi] at h
    | some w =>
      have hilt : index < weights.length := by
        by_contra hcon
        rw [List.getElem?_eq_none (by omega)] at hi
        cases hi
      simp only [hi] at h ⊢
      by_cases hgt : beta > w
      · simp only [if_pos hgt] at h ⊢
        obtain ⟨⟨pre, hpre⟩, hall, hlen⟩ := ih _ _ r h
        refine ⟨⟨(beta, index) :: pre, by rw [hpre]; rfl⟩, ?_, ?_⟩
        · intro s hs
          rcases List.mem_cons.1 hs with rfl | hs
          · exact ⟨hilt, Or.inl rfl⟩
          · obtain ⟨h1, h2⟩ := hall s hs
            refine ⟨h1, Or.inr ?_⟩
            rcases h2 with h2 | h2
            · rw [h2]
              exact sub_pos.2 hgt
            · exact h2
        · simp only [List.length_cons]
          omega
      · simp only [if_neg hgt, Option.some.injEq] at h ⊢
        subst h
        refine ⟨⟨[], rfl⟩, ?_, by simp⟩
        intro s hs
        rw [List.mem_singleton.1 hs]
        exact ⟨hilt, Or.inl rfl⟩

/-- The walks of a completed run of the main loop of `resample`: there is one
per iteration; in each of them `beta` is never negative and the index never
leaves `weights`; the walk of iteration `t` ends in the state `(b, idx)` in
which `particles[idx]` is copied to position `t` of the new set, with
`0 <= b <= weight of that particle`. -/
theorem resampleTrace_spec (fuel : Nat) (particles : List (Particle α))
    (weights : List α) (n : Nat) (draws : Nat → α)
    (hagree : ∀ (idx : Nat) (w : α) (p : Particle α),
      weights[idx]? = some w → particles[idx]? = some p → p.weight = w)
    (hdraws : ∀ i, 0 ≤ draws i) :
    ∀ (k i : Nat) (beta : α) (index : Nat) (acc out : List (Particle α)),
      resampleLoop fuel particles weights n draws i k beta index acc = some out →
      0 ≤ beta →
      ∃ copies, out = acc ++ copies ∧
        (resampleTrace fuel particles weights n draws i k beta index).length = k ∧
        ∀ (t : Nat) (walk : List (α × Nat)),
          (resampleTrace fuel particles weights n draws i k beta index)[t]? = some walk →
          walk.length ≤ fuel ∧
          (∀ s ∈ walk, 0 ≤ s.1 ∧ s.2 < weights.length) ∧
          ∃ (pre : List (α × Nat)) (b : α) (idx : Nat) (p : Particle α),
            walk = pre ++ [(b, idx)] ∧ particles[idx]? = some p ∧
            copies[t]? = some p ∧ 0 ≤ b ∧ b ≤ p.weight := by
  intro k
  induction k with
  | zero =>
    intro i beta index acc out h _
    simp only [resampleLoop, Option.some.injEq] at h
    subst h
    refine ⟨[], by simp, rfl, fun t walk ht => ?_⟩
    simp [resampleTrace] at ht
  | succ k ih =>
    intro i beta index acc out h hb
    unfold resampleLoop at h
    unfold resampleTrace
    cases hw : wheel weights n fuel (beta + draws i * 2) index with
    | none => simp [hw] at h
    | some r =>
      obtain ⟨beta1, index1⟩ := r
      simp only [hw] at h ⊢
      cases hp : particles[index1]? with
      | none => simp [hp] at h
      | some p =>
        simp only [hp] at h ⊢
        have hstart : 0 ≤ beta + draws i * 2 := by
          have := hdraws i
          linarith
        obtain ⟨⟨w, hw1, hw2⟩, hw3⟩ := wheel_some weights n _ _ _ _ hw
        simp only at hw1 hw2 hw3
        have hb1 : 0 ≤ beta1 := by
          rcases hw3 with hw3 | hw3
          · have := congrArg Prod.fst hw3
            simp only at this
            rw [this]
            exact hstart
          · exact le_of_lt hw3
        obtain ⟨⟨pre, hpre⟩, hall, hlen⟩ := wheelTrace_spec weights n _ _ _ _ hw
        obtain ⟨copies, hout, hk, hrest⟩ := ih _ _ _ _ out h hb1
        refine ⟨p :: copies, by rw [hout]; simp, by simp only [List.length_cons, hk], ?_⟩
        intro t walk ht
        cases t with
        | zero =>
          simp only [List.getElem?_cons_zero, Option.some.injEq] at ht
          subst ht
          refine ⟨hlen, fun s hs => ?_, pre, beta1, index1, p, hpre, hp,
            List.getElem?_cons_zero, hb1, ?_⟩
          · obtain ⟨h1, h2⟩ := hall s hs
            refine ⟨?_, h1⟩
            rcases h2 with h2 | h2
            · rw [h2]
              exact hstart
            · exact le_of_lt h2
          · rw [hagree index1 w p hw1 hp]
            exact hw2
        | succ t =>
          simp only [List.getElem?_cons_succ] at ht
          obtain ⟨h1, h2, pre2, b, idx, q, h3, h4, h5, h6⟩ := hrest t walk ht
          exact ⟨h1, h2, pre2, b, idx, q, h3, h4, by simpa using h5, h6⟩

/-- The walks of a completed call of `resample`, for a particle sequence of
length `num_particles` and non-negative draws. -/
theorem resampleWalks_spec (fuel start : Nat) (draws : Nat → α)
    (pf pf1 : ParticleFilter α)
    (hlen : pf.particles.length = pf.num_particles)
    (hdraws : ∀ i, 0 ≤ draws i)
    (h : resample fuel start draws pf = some pf1) :
    (resampleWalks fuel start draws pf).length = pf.num_particles ∧
    ∀ (t : Nat) (walk : List (α × Nat)),
      (resampleWalks fuel start draws pf)[t]? = some walk →
      walk.length ≤ fuel ∧
      (∀ s ∈ walk, 0 ≤ s.1 ∧ s.2 < pf.num_particles) ∧
      ∃ (pre : List (α × Nat)) (b : α) (idx : Nat) (p : Particle α),
        walk = pre ++ [(b, idx)] ∧ pf.particles[idx]? = some p ∧
        pf1.particles[t]? = some p ∧ 0 ≤ b ∧ b ≤ p.weight := by
  unfold resample at h
  unfold resampleWalks
  rw [weightsLoop_full pf.particles pf.num_particles hlen] at h ⊢
  simp only at h ⊢
  cases hmax : max_element (pf.particles.map fun p => p.weight) with
  | none => simp [hmax] at h
  | some mw =>
    simp only [hmax] at h ⊢
    cases hloop : resampleLoop fuel pf.particles (pf.particles.map fun p => p.weight)
        pf.num_particles draws 0 pf.num_particles 0 start [] with
    | none => simp [hloop] at h
    | some out =>
      simp only [hloop, Option.some.injEq] at h
      subst h
      have hagree : ∀ (idx : Nat) (w : α) (p : Particle α),
          (pf.particles.map fun p => p.weight)[idx]? = some w →
          pf.particles[idx]? = some p → p.weight = w := by
        intro idx w p h1 h2
        simpa [List.getElem?_map, h2] using h1
      obtain ⟨copies, hout, hk, hrest⟩ := resampleTrace_spec fuel pf.particles _
        pf.num_particles draws hagree hdraws _ _ _ _ _ _ hloop (le_refl 0)
      simp only [List.nil_append] at hout
      subst hout
      refine ⟨hk, fun t walk ht => ?_⟩
      obtain ⟨h1, h2, h3⟩ := hrest t walk ht
      refine ⟨h1, fun s hs => ?_, h3⟩
      obtain ⟨h4, h5⟩ := h2 s hs
      refine ⟨h4, ?_⟩
      rw [List.length_map, hlen] at h5
      exact h5

/-- C11: for every `predicted` and every `observations`, the list returned by
`dataAssociation` has the length of `observations`, and the observation at
each index keeps its `x` and its `y`; only the `id` may differ. -/
theorem dataAssociation_changes_ids_only (m : Libm α)
    (predicted observations : List (LandmarkObs α)) :
    (dataAssociation m predicted observations).length = observations.length ∧
    ∀ (i : Nat) (o : LandmarkObs α), observations[i]? = some o →
      ∃ r, (dataAssociation m predicted observations)[i]? = some r ∧
        r.x = o.x ∧ r.y = o.y := by
  refine ⟨by simp [dataAssociation], fun i o ho => ?_⟩
  exact ⟨{ o with id := nearestLoop m o predicted DBL_MAX (-1) },
    by simp [dataAssociation, List.getElem?_map, ho], rfl, rfl⟩

/-! ## `getAssociations` and `getSenseCoord` -/

/-- C12: on a particle whose `associations` are empty `getAssociations`
returns the empty string; on a particle whose `sense_x` is empty
`getSenseCoord` with `"X"` returns the empty string, and on one whose
`sense_y` is empty so does `getSenseCoord` with any other `coord`.  The
intermediate string is empty, `length() - 1` wraps to `2^64 - 1`, and
`substr(0, 2^64 - 1)` of the empty string is the empty string; no exception is
thrown. -/
theorem empty_sequence_formatting (fmtFloat : α → List Char) (best : Particle α) :
    (best.associations = [] → getAssociations best = some []) ∧
    (best.sense_x = [] → getSenseCoord fmtFloat best ['X'] = some []) ∧
    (best.sense_y = [] → ∀ (coord : List Char), coord ≠ ['X'] →
      getSenseCoord fmtFloat best coord = some []) ∧
    lengthMinusOne [] = 2 ^ 64 - 1 := by
  refine ⟨fun h => ?_, fun h => ?_, fun h coord hc => ?_, by simp [lengthMinusOne]⟩
  · simp [getAssociations, h, copyToStream, substr]
  · simp [getSenseCoord, h, copyToStream, substr]
  · simp [getSenseCoord, h, hc, copyToStream, substr]

/-- Witness for C12: a particle whose three sequences are empty. -/
theorem empty_sequence_formatting_witness :
    getAssociations (⟨3, 1, 2, 0, 1, [], [], []⟩ : Particle ℚ) = some [] ∧
    getSenseCoord (fun _ => ['1']) (⟨3, 1, 2, 0, 1, [], [], []⟩ : Particle ℚ) ['X'] = some [] ∧
    getSenseCoord (fun _ => ['1']) (⟨3, 1, 2, 0, 1, [], [], []⟩ : Particle ℚ) ['Y'] = some [] :=
  ⟨(empty_sequence_formatting (fun _ => ['1']) (⟨3, 1, 2, 0, 1, [], [], []⟩ : Particle ℚ)).1 rfl,
    (empty_sequence_formatting (fun _ => ['1'])
      (⟨3, 1, 2, 0, 1, [], [], []⟩ : Particle ℚ)).2.1 rfl,
    (empty_sequence_formatting (fun _ => ['1'])
      (⟨3, 1, 2, 0, 1, [], [], []⟩ : Particle ℚ)).2.2.1 rfl ['Y'] (by decide)⟩

/-- C13: for every particle with a non-empty `associations` sequence (whose
intermediate string is shorter than `2^64`, as every `std::string` is),
`getAssociations` returns the decimal renderings of the elements, in order,
joined by exactly one space.  The result neither starts nor ends with a
space; splitting it on spaces gives back the renderings, and reading each
token as an integer gives back the sequence. -/
theorem getAssociations_format (best : Particle α)
    (hne : best.associations ≠ [])
    (hsize : (copyToStream ostreamInt best.associations).length < 2 ^ 64) :
    getAssociations best =
      some ([' '].intercalate (best.associations.map ostreamInt)) ∧
    ([' '].intercalate (best.associations.map ostreamInt)).head? ≠ some ' ' ∧
    ([' '].intercalate (best.associations.map ostreamInt)).getLast? ≠ some ' ' ∧
    ([' '].intercalate (best.associations.map ostreamInt)).splitOn ' ' =
      best.associations.map ostreamInt ∧
    (([' '].intercalate (best.associations.map ostreamInt)).splitOn ' ').map parseInt =
      best.associations := by
  cases hv : best.associations with
  | nil => exact absurd hv hne
  | cons a rest =>
    rw [hv] at hsize
    have htok : ∀ t ∈ (a :: rest).map ostreamInt, t ≠ [] ∧ ' ' ∉ t := by
      intro t ht
      obtain ⟨b, _, rfl⟩ := List.mem_map.1 ht
      exact ostreamInt_spec b
    have hsplit : ([' '].intercalate ((a :: rest).map ostreamInt)).splitOn ' ' =
        (a :: rest).map ostreamInt :=
      List.splitOn_intercalate _ ' ' (fun l hl => (htok l hl).2) (List.cons_ne_nil _ _)
    have hends := intercalate_space_ends (ostreamInt a) (rest.map ostreamInt)
      (by simpa using htok)
    refine ⟨?_, ?_, ?_, hsplit, ?_⟩
    · unfold getAssociations
      simp only [hv]
      rw [copyToStream_eq] at hsize ⊢
      exact substr_drop_last _ _ hsize
    · simpa using hends.1
    · simpa using hends.2
    · rw [hsplit, List.map_map]
      have : (parseInt ∘ ostreamInt) = id := by
        funext b
        exact parseInt_ostreamInt b
      rw [this, List.map_id]

/-- Witness for C13: the associations `[12, -3, 0]` give the text `12 -3 0`. -/
theorem getAssociations_format_witness :
    getAssociations (⟨0, 0, 0, 0, 1, [12, -3, 0], [], []⟩ : Particle ℚ) =
      some ['1', '2', ' ', '-', '3', ' ', '0'] ∧
    (['1', '2', ' ', '-', '3', ' ', '0'].splitOn ' ').map parseInt = [12, -3, 0] := by
  have h := getAssociations_format (⟨0, 0, 0, 0, 1, [12, -3, 0], [], []⟩ : Particle ℚ)
    (by simp) (by decide)
  have he : [' '].intercalate (([12, -3, 0] : List Int).map ostreamInt) =
      ['1', '2', ' ', '-', '3', ' ', '0'] := by decide
  simp only [he] at h
  exact ⟨h.1, h.2.2.2.2⟩

/-! ## `init` -/

/-- C14: applied to a freshly constructed filter (empty particle sequence),
`init` completes for every pose estimate, every deviation vector and every
sequence of draws; it leaves `num_particles = 100` and 100 particles, the
particle of every index `i` in `0..99` has weight exactly 1 and id exactly
`i`, and `is_initialized` is true. -/
theorem init_particle_set (x y theta : α) (std : α × α × α)
    (draws : Nat → α × α × α) (pf : ParticleFilter α)
    (hfresh : pf.particles = []) :
    ∃ pf1, init x y theta std draws pf = some pf1 ∧ pf1.num_particles = 100 ∧
      pf1.particles.length = 100 ∧ pf1.is_initialized = true ∧
      ∀ (i : Nat), i < 100 →
        ∃ p, pf1.particles[i]? = some p ∧ p.weight = 1 ∧ p.id = (i : Int) := by
  obtain ⟨pf1, h1, h2, h3, h4, h5⟩ := init_fresh x y theta std draws pf hfresh
  exact ⟨pf1, h1, h2, h4, h3, fun i hi => ⟨_, h5 i hi, rfl, rfl⟩⟩

/-- Witness for C14: the fresh filter over the rationals, the estimate
`(4, 5, 1/2)`, deviations `(2, 2, 1/20)` and the draws `(i, -i, i/2)`. -/
theorem init_particle_set_witness :
    ∃ pf1, init (4 : ℚ) 5 (1 / 2) (2, 2, 1 / 20)
        (fun i => ((i : ℚ), -(i : ℚ), (i : ℚ) / 2)) ⟨0, false, [], []⟩ = some pf1 ∧
      pf1.num_particles = 100 ∧ pf1.particles.length = 100 ∧
      pf1.is_initialized = true ∧
      ∀ (i : Nat), i < 100 →
        ∃ p, pf1.particles[i]? = some p ∧ p.weight = 1 ∧ p.id = (i : Int) :=
  init_particle_set (4 : ℚ) 5 (1 / 2) (2, 2, 1 / 20)
    (fun i => ((i : ℚ), -(i : ℚ), (i : ℚ) / 2)) ⟨0, false, [], []⟩ rfl

/-! ## `SetAssociations` -/

/-- C15: `SetAssociations` assigns the three sequences it is given, whatever
their lengths, and leaves `id`, `x`, `y`, `theta` and `weight` as they were;
it is a total function, so the call cannot fail. -/
theorem SetAssociations_assigns (particle : Particle α) (associations : List Int)
    (sense_x sense_y : List α) :
    (SetAssociations particle associations sense_x sense_y).associations = associations ∧
    (SetAssociations particle associations sense_x sense_y).sense_x = sense_x ∧
    (SetAssociations particle associations sense_x sense_y).sense_y = sense_y ∧
    (SetAssociations particle associations sense_x sense_y).id = particle.id ∧
    (SetAssociations particle associations sense_x sense_y).x = particle.x ∧
    (SetAssociations particle associations sense_x sense_y).y = particle.y ∧
    (SetAssociations particle associations sense_x sense_y).theta = particle.theta ∧
    (SetAssociations particle associations sense_x sense_y).weight = particle.weight :=
  ⟨rfl, rfl, rfl, rfl, rfl, rfl, rfl, rfl⟩

/-! ## Gating and transform in `updateWeights` -/

/-- C16: the list `predictions` that `updateWeights` builds for a particle at
`(px, py)` is the map, in map order, restricted to the landmarks with
`|px - lx| <= sensor_range` and `|py - ly| <= sensor_range`, each with its map
id and position; it is the list the weight of the particle is computed from.
A landmark inside the square is kept whatever its Euclidean distance: with
range 1 the landmark `(1, 1)` is kept for a particle at the origin although
its squared distance 2 exceeds the squared range 1. -/
theorem predictions_square_window (sensor_range p_x p_y : α)
    (l : List (single_landmark_s α)) :
    predictions sensor_range p_x p_y l =
      (l.filter fun lm =>
        decide (|p_x - lm.x_f| ≤ sensor_range ∧ |p_y - lm.y_f| ≤ sensor_range)).map
        (fun lm => ⟨lm.id_i, lm.x_f, lm.y_f⟩) ∧
    (∀ (m : Libm α) (std_landmark : α × α) (observations : List (LandmarkObs α))
        (unset : Nat → Nat → α × α) (i : Nat) (p : Particle α),
      particleWeight m sensor_range std_landmark observations ⟨l⟩ unset i p =
        weightLoop m std_landmark i (predictions sensor_range p.x p.y l) (unset i) 0
          (dataAssociation m (predictions sensor_range p.x p.y l)
            (map_observations m p.x p.y p.theta observations)) 1) ∧
    (predictions (1 : α) 0 0 [⟨7, 1, 1⟩] = [⟨7, 1, 1⟩] ∧
      (1 : α) ^ 2 < (1 - 0) ^ 2 + (1 - 0) ^ 2) := by
  refine ⟨predictions_eq_filter sensor_range p_x p_y l, fun _ _ _ _ _ _ => rfl, ?_, ?_⟩
  · simp [predictions]
  · norm_num

/-- C17: the list that `updateWeights` passes to `dataAssociation` for a
particle with pose `(px, py, theta)` has the length of the raw observation
list, and at each index it holds the raw observation `(xo, yo)` of that index
moved to `px + cos(theta)*xo - sin(theta)*yo`,
`py + sin(theta)*xo + cos(theta)*yo`, with the id it had.  The raw list is an
input of the embedding and is the same before and after. -/
theorem map_observations_transform (m : Libm α) (sensor_range : α)
    (std_landmark : α × α) (observations : List (LandmarkObs α))
    (map_landmarks : Map α) (unset : Nat → Nat → α × α) (i : Nat)
    (p : Particle α) :
    particleWeight m sensor_range std_landmark observations map_landmarks unset i p =
      weightLoop m std_landmark i
        (predictions sensor_range p.x p.y map_landmarks.landmark_list) (unset i) 0
        (dataAssociation m (predictions sensor_range p.x p.y map_landmarks.landmark_list)
          (map_observations m p.x p.y p.theta observations)) 1 ∧
    (map_observations m p.x p.y p.theta observations).length = observations.length ∧
    ∀ (j : Nat) (o : LandmarkObs α), observations[j]? = some o →
      (map_observations m p.x p.y p.theta observations)[j]? =
        some ⟨o.id, p.x + m.cos p.theta * o.x - m.sin p.theta * o.y,
          p.y + m.sin p.theta * o.x + m.cos p.theta * o.y⟩ := by
  refine ⟨rfl, by simp [map_observations], fun j o ho => ?_⟩
  simp [map_observations, List.getElem?_map, ho]

/-! ## The resampling wheel -/

/-- C19: in a completed call of `resample` on a particle sequence of length
`num_particles` with non-negative threshold draws, `beta` is `>= 0` in every
state of every walk, and the walk of iteration `t` ends in the state
`(beta, index)` in which `particles[index]` is copied to position `t` of the
new set, with `0 <= beta <= weight of that particle`.  (The weights need not
be non-negative for this.) -/
theorem resample_wheel_invariant (fuel start : Nat) (draws : Nat → α)
    (pf pf1 : ParticleFilter α)
    (hlen : pf.particles.length = pf.num_particles)
    (hdraws : ∀ i, 0 ≤ draws i)
    (h : resample fuel start draws pf = some pf1) :
    (resampleWalks fuel start draws pf).length = pf.num_particles ∧
    ∀ (t : Nat) (walk : List (α × Nat)),
      (resampleWalks fuel start draws pf)[t]? = some walk →
      (∀ s ∈ walk, 0 ≤ s.1) ∧
      ∃ (pre : List (α × Nat)) (b : α) (idx : Nat) (p : Particle α),
        walk = pre ++ [(b, idx)] ∧ pf.particles[idx]? = some p ∧
        pf1.particles[t]? = some p ∧ 0 ≤ b ∧ b ≤ p.weight := by
  obtain ⟨hk, hrest⟩ := resampleWalks_spec fuel start draws pf pf1 hlen hdraws h
  refine ⟨hk, fun t walk ht => ?_⟩
  obtain ⟨_, h2, h3⟩ := hrest t walk ht
  exact ⟨fun s hs => (h2 s hs).1, h3⟩

/-- Witness for C19: three particles with the weights `[0, 0, 1]`, starting
index 0 and every draw `1/2`; the three walks are
`(1,0) (1,1) (1,2)`, `(2,2) (1,0) (1,1) (1,2)` and again
`(2,2) (1,0) (1,1) (1,2)`, each ending with `beta = 1` at the particle of
weight 1. -/
theorem resample_wheel_invariant_witness :
    resampleWalks 13 0 (fun _ => (1 / 2 : ℚ)) threeParticles =
      [[(1, 0), (1, 1), (1, 2)], [(2, 2), (1, 0), (1, 1), (1, 2)],
       [(2, 2), (1, 0), (1, 1), (1, 2)]] ∧
    (resampleWalks 13 0 (fun _ => (1 / 2 : ℚ)) threeParticles).length = 3 ∧
    ∀ (t : Nat) (walk : List (ℚ × Nat)),
      (resampleWalks 13 0 (fun _ => (1 / 2 : ℚ)) threeParticles)[t]? = some walk →
      (∀ s ∈ walk, 0 ≤ s.1) ∧
      ∃ (pre : List (ℚ × Nat)) (b : ℚ) (idx : Nat) (p : Particle ℚ),
        walk = pre ++ [(b, idx)] ∧ threeParticles.particles[idx]? = some p ∧
        ([⟨2, 12, 22, 0, 1, [], [], []⟩, ⟨2, 12, 22, 0, 1, [], [], []⟩,
          ⟨2, 12, 22, 0, 1, [], [], []⟩] : List (Particle ℚ))[t]? = some p ∧
        0 ≤ b ∧ b ≤ p.weight := by
  have hrun : resample 13 0 (fun _ => (1 / 2 : ℚ)) threeParticles =
      some ⟨3, true, [], [⟨2, 12, 22, 0, 1, [], [], []⟩, ⟨2, 12, 22, 0, 1, [], [], []⟩,
        ⟨2, 12, 22, 0, 1, [], [], []⟩]⟩ := by
    norm_num [resample, weightsLoop, max_element, resampleLoop, wheel, threeParticles]
  have h := resample_wheel_invariant 13 0 (fun _ => (1 / 2 : ℚ)) threeParticles _
    rfl (fun _ => by norm_num) hrun
  refine ⟨?_, h.1, h.2⟩
  norm_num [resampleWalks, weightsLoop, max_element, resampleTrace, wheelTrace, wheel,
    threeParticles]

/-! ## Frame of `updateWeights` -/

/-- C20: a completed call of `updateWeights` leaves `num_particles`,
`is_initialized` and the length of the particle sequence as they were, and at
every index the particle keeps its id, x, y, theta, associations, sense_x and
sense_y; its weight is kept too when the index is not below `num_particles`.
The call completes when the sequence holds at least `num_particles` particles
and no lookup reads outside `predictions`. -/
theorem updateWeights_changes_weights_only (m : Libm α) (sensor_range : α)
    (std_landmark : α × α) (observations : List (LandmarkObs α))
    (map_landmarks : Map α) (unset : Nat → Nat → α × α)
    (pf : ParticleFilter α) :
    (∀ pf1, updateWeights m sensor_range std_landmark observations map_landmarks
        unset pf = some pf1 →
      pf1.num_particles = pf.num_particles ∧
      pf1.is_initialized = pf.is_initialized ∧
      pf1.particles.length = pf.particles.length ∧
      ∀ (i : Nat) (p : Particle α), pf.particles[i]? = some p →
        ∃ q, pf1.particles[i]? = some q ∧ q.id = p.id ∧ q.x = p.x ∧ q.y = p.y ∧
          q.theta = p.theta ∧ q.associations = p.associations ∧
          q.sense_x = p.sense_x ∧ q.sense_y = p.sense_y ∧
          (pf.num_particles ≤ i → q.weight = p.weight)) ∧
    (pf.num_particles ≤ pf.particles.length →
      (∀ (i : Nat) (p : Particle α), i < pf.num_particles →
        pf.particles[i]? = some p →
        (predictions sensor_range p.x p.y map_landmarks.landmark_list).length ≤ i ∨
        ∀ o ∈ map_observations m p.x p.y p.theta observations,
          ∃ q ∈ predictions sensor_range p.x p.y map_landmarks.landmark_list,
            dist m o.x o.y q.x q.y < DBL_MAX) →
      ∃ pf1, updateWeights m sensor_range std_landmark observations map_landmarks
        unset pf = some pf1) := by
  refine ⟨fun pf1 h => ?_, fun hlen hmatch => ?_⟩
  · obtain ⟨h1, h2⟩ := updateWeights_some_length m _ _ _ _ _ _ _ h
    have hinit : pf1.is_initialized = pf.is_initialized := by
      unfold updateWeights at h
      split at h
      · cases h
      · simp only [Option.some.injEq] at h
        rw [← h]
    refine ⟨h1, hinit, h2, fun i p hp => ?_⟩
    obtain ⟨hlow, hhigh⟩ := updateWeights_some m _ _ _ _ _ _ _ h i p hp
    by_cases hi : i < pf.num_particles
    · obtain ⟨w, _, hq⟩ := hlow hi
      exact ⟨_, hq, rfl, rfl, rfl, rfl, rfl, rfl, rfl, fun hge => absurd hi (by omega)⟩
    · exact ⟨p, hhigh (by omega), rfl, rfl, rfl, rfl, rfl, rfl, rfl, fun _ => rfl⟩
  · exact updateWeights_total m _ _ _ _ _ _ hlen fun i p hi hp =>
      particleWeight_total m _ _ _ _ _ i p (hmatch i p hi hp)

/-- Witness for C20: over the reals, two particles, an empty map and one
observation: the call completes and only the weights have changed. -/
theorem updateWeights_changes_weights_only_witness :
    ∃ pf1, updateWeights ⟨Real.sqrt, Real.sin, Real.cos, Real.exp, Real.pi⟩ 50 (1, 1)
        [⟨0, 1, 0⟩] ⟨[]⟩ (fun _ _ => (0, 0))
        ⟨2, true, [], [⟨0, 1, 2, 3, 1, [5], [6], [7]⟩, ⟨1, 4, 5, 6, 1, [], [], []⟩]⟩
        = some pf1 ∧
      pf1.particles.length = 2 ∧
      ∃ q, pf1.particles[0]? = some q ∧ q.id = 0 ∧ q.x = 1 ∧ q.y = 2 ∧ q.theta = 3 ∧
        q.associations = [5] ∧ q.sense_x = [6] ∧ q.sense_y = [7] := by
  have h := updateWeights_changes_weights_only
    ⟨Real.sqrt, Real.sin, Real.cos, Real.exp, Real.pi⟩ 50 (1, 1)
    [⟨0, 1, 0⟩] ⟨[]⟩ (fun _ _ => (0, 0))
    ⟨2, true, [], [⟨0, 1, 2, 3, 1, [5], [6], [7]⟩, ⟨1, 4, 5, 6, 1, [], [], []⟩]⟩
  obtain ⟨pf1, hpf1⟩ := h.2 (le_refl _) (fun i p _ _ => Or.inl (by simp [predictions]))
  obtain ⟨_, _, hl, hf⟩ := h.1 pf1 hpf1
  obtain ⟨q, hq, h1, h2, h3, h4, h5, h6, h7, _⟩ := hf 0 _ rfl
  exact ⟨pf1, hpf1, hl, q, hq, h1, h2, h3, h4, h5, h6, h7⟩

end KidnappedVehicle
